import Mathlib

/-!
Shallow embedding of `src/lib/Postprocessing.hpp` (namespace `Postprocessing`)
of the eaglefrac repository, together with proofs settling the frozen claims.

The header defines three postprocessing routines over a distributed
finite-element phase-field fracture solution:

* `compute_boundary_load` — integrates the linear-elastic traction over the
  faces carrying a given boundary id, then MPI-sums each component;
* `compute_cod`            — integrates `0.5 * u . grad(phi)` over quadrature
  points of all faces of owned cells that lie on given transect lines,
  then MPI-sums each line's value;
* `get_point_values`       — returns, per query point, the solution value at
  the nearest mesh vertex, resolved across ranks by min-reductions.

Modelling conventions:

* Scalars (`double` in the source) are modelled by `ℚ`; floating-point
  rounding is idealized away.  The literal `std::numeric_limits<double>::max()`
  is modelled by the exact value of `DBL_MAX`, `dblMax = (2^53-1)*2^971`.
* The SPMD/MPI execution is modelled by passing a list of per-rank states
  (`List (PhaseFieldSolver dim)` resp. `List (List (GPCell dim))`); the
  collectives `Utilities::MPI::sum` / `Utilities::MPI::min` become a sum /
  minimum over that list.  Every rank of the real program obtains the same
  reduced value; the model returns that common value once.
* The finite-element machinery (`FEFaceValues`, `get_function_values`,
  `get_function_gradients`, `get_function_symmetric_gradients`) is external
  to the repository.  It is modelled by per-quadrature-point data attached to
  each face: geometric data (`point`, `normal`, `jxw`) and field evaluators
  (`strain_of`, `u_of`, `grad_phi_of`) that are functions of the vector the
  source passes to them (`pf.relevant_solution`).
* `Point::operator[]` with an out-of-range index and the read of a
  distributed vector at an out-of-range global index are undefined/throwing
  behaviour in the source; the embedding makes them explicit `Except` errors.
-/

/-- Spatial vector (deal.II `Tensor<1,dim>` / `Point<dim>`) with rational entries. -/
abbrev Vec (dim : ℕ) := Fin dim → ℚ

/-- Rank-2 tensor (deal.II `Tensor<2,dim>`; symmetric tensors are stored as
their full matrix of components). -/
abbrev Mat (dim : ℕ) := Fin dim → Fin dim → ℚ

/-- The distributed solution vector (`TrilinosWrappers::MPI::BlockVector`),
modelled as the flat list of its global entries. -/
abbrev BlockVec := List ℚ

/-- Dot product of two spatial vectors (deal.II `Tensor<1>*Tensor<1>`). -/
def dot {dim : ℕ} (a b : Vec dim) : ℚ :=
  Finset.univ.sum fun i => a i * b i

/-- Trace of a rank-2 tensor (deal.II `trace`). -/
def trace {dim : ℕ} (m : Mat dim) : ℚ :=
  Finset.univ.sum fun i => m i i

/-- Modelled from the spec: `ConstitutiveModel::get_identity_tensor<dim>()`
(header `ConstitutiveModel.hpp` is not part of the given sources).  The spec's
stress law `stress = lambda*trace(strain)*I + 2*mu*strain` names `I` the
identity, so the tensor is modelled as the identity matrix. -/
def identity_tensor (dim : ℕ) : Mat dim :=
  fun i j => if i = j then 1 else 0

/-- Matrix–vector contraction (deal.II `Tensor<2>*Tensor<1>`). -/
def matvec {dim : ℕ} (m : Mat dim) (v : Vec dim) : Vec dim :=
  fun i => Finset.univ.sum fun j => m i j * v j

/-- Per-quadrature-point data of a face, as produced by the external
`FEFaceValues` machinery after `reinit` on that face: the quadrature point's
coordinates, the outward normal, the integration weight `JxW`, and the field
evaluations used by the two integrators.  The evaluators take the vector the
source passes to `get_function_*` (the ghost-extended `relevant_solution`). -/
structure QPData (dim : ℕ) where
  point : Vec dim
  normal : Vec dim
  jxw : ℚ
  strain_of : BlockVec → Mat dim
  u_of : BlockVec → Vec dim
  grad_phi_of : BlockVec → Vec dim

/-- A cell face: its boundary flag (`face->at_boundary()`), boundary id
(`face->boundary_id()`), and its quadrature data for the two quadrature
formulas the source builds (`QGauss<dim-1>(fe.degree+1)` for the boundary-load
integral, `QGauss<dim-1>(3)` for the COD integral). -/
structure MeshFace (dim : ℕ) where
  at_boundary : Bool
  boundary_id : ℤ
  qBL : List (QPData dim)
  qCOD : List (QPData dim)

/-- An active cell of the triangulation as seen by one rank: its ownership
flag (`cell->is_locally_owned()`) and its faces. -/
structure MeshCell (dim : ℕ) where
  locally_owned : Bool
  faces : List (MeshFace dim)

/-- Modelled from the spec: the fields of `PhaseField::PhaseFieldSolver<dim>`
(header not among the given sources) that `Postprocessing.hpp` uses: the
distributed solution, the ghost-extended `relevant_solution` it overwrites,
and the mesh view behind `dof_handler` / `fe`. -/
structure PhaseFieldSolver (dim : ℕ) where
  solution : BlockVec
  relevant_solution : BlockVec
  mesh : List (MeshCell dim)

/-- Modelled from the spec: the two elastic constants of
`InputData::PhaseFieldData<dim>` read by `compute_boundary_load`. -/
structure PhaseFieldData where
  lame_constant : ℚ
  shear_modulus : ℚ

/-- The stress tensor of lines 55–57 of the source:
`lame_constant*trace(strain_value)*identity_tensor + 2*shear_modulus*strain_value`. -/
def stress_value {dim : ℕ} (lame shear : ℚ) (strain : Mat dim) : Mat dim :=
  fun i j => lame * trace strain * identity_tensor dim i j + 2 * shear * strain i j

/-- One quadrature point's contribution to the local load (line 59):
`stress_value * normal_vector(q) * JxW(q)`. -/
def qpTraction {dim : ℕ} (sol : BlockVec) (data : PhaseFieldData) (q : QPData dim) : Vec dim :=
  fun i => matvec (stress_value data.lame_constant data.shear_modulus (q.strain_of sol)) q.normal i * q.jxw

/-- The q-point loop of `compute_boundary_load` on one matching face
(lines 43–61): strains are evaluated from the vector passed to
`get_function_symmetric_gradients` and accumulated into `local_load`. -/
def face_load {dim : ℕ} (sol : BlockVec) (data : PhaseFieldData) (f : MeshFace dim)
    (acc : Vec dim) : Vec dim :=
  f.qBL.foldl (fun a q => a + qpTraction sol data q) acc

/-- The face loop of `compute_boundary_load` on one cell (lines 39–62): only
faces with `at_boundary() && boundary_id() == boundary_id` contribute. -/
def cell_load {dim : ℕ} (sol : BlockVec) (data : PhaseFieldData) (bid : ℤ)
    (c : MeshCell dim) (acc : Vec dim) : Vec dim :=
  c.faces.foldl
    (fun a f => if f.at_boundary && (f.boundary_id == bid) then face_load sol data f a else a)
    acc

/-- One rank's execution of `compute_boundary_load` (lines 13–68): overwrite
`relevant_solution` with `solution` (line 31), run the cell loop over
locally-owned cells accumulating `local_load` from zero, and return the local
vector together with the rank's updated solver state. -/
def compute_boundary_load_rank {dim : ℕ} (pf : PhaseFieldSolver dim)
    (data : PhaseFieldData) (bid : ℤ) : Vec dim × PhaseFieldSolver dim :=
  let pf' := { pf with relevant_solution := pf.solution }
  (pf'.mesh.foldl
      (fun a c => if c.locally_owned then cell_load pf'.relevant_solution data bid c a else a)
      0,
   pf')

/-- `Postprocessing::compute_boundary_load` over the whole communicator: every
rank computes its local load, then each of the `dim` components is reduced by
`Utilities::MPI::sum` (lines 64–65).  The updated per-rank states are returned
alongside the reduced load. -/
def compute_boundary_load {dim : ℕ} (world : List (PhaseFieldSolver dim))
    (data : PhaseFieldData) (bid : ℤ) : Vec dim × List (PhaseFieldSolver dim) :=
  let ranks := world.map fun pf => compute_boundary_load_rank pf data bid
  (fun i => (ranks.map fun r => r.1 i).sum, ranks.map fun r => r.2)

/-- The index expression `1 - direction` of lines 118–119, evaluated in
C++ `unsigned int` (32-bit wraparound) arithmetic. -/
def compAxis (direction : ℕ) : ℕ :=
  (1 + 2 ^ 32 - direction % 2 ^ 32) % 2 ^ 32

/-- Coordinate access `q_point[i]` (deal.II `Point::operator[]`): defined only
for an in-range index; an out-of-range access is undefined behaviour in the
source and is made an explicit `none` here. -/
def getCoord? {dim : ℕ} (p : Vec dim) (i : ℕ) : Option ℚ :=
  if h : i < dim then some (p ⟨i, h⟩) else none

/-- Total variant of coordinate access, used on the specification side where
an in-range hypothesis is available. -/
def coordD {dim : ℕ} (p : Vec dim) (i : ℕ) : ℚ :=
  if h : i < dim then p ⟨i, h⟩ else 0

/-- Failure modes of `compute_cod`: the explicit `AssertThrow` of line 79, and
the out-of-range `q_point[1-direction]` coordinate access of lines 118–119. -/
inductive CodError where
  | invalidDirection : CodError
  | coordOutOfBounds : CodError
deriving DecidableEq, Repr

/-- Left fold of a fallible loop body over a list, aborting at the first
error: the evaluation order of a C++ loop whose body may throw. -/
def foldE {α β ε : Type} (f : β → α → Except ε β) : β → List α → Except ε β
  | b, [] => .ok b
  | b, x :: xs =>
    match f b x with
    | .error e => .error e
    | .ok b' => foldE f b' xs

/-- Map of a fallible body over a list, aborting at the first error. -/
def mapE {α β ε : Type} (f : α → Except ε β) : List α → Except ε (List β)
  | [] => .ok []
  | x :: xs =>
    match f x with
    | .error e => .error e
    | .ok y =>
      match mapE f xs with
      | .error e => .error e
      | .ok ys => .ok (y :: ys)

/-- The line loop of `compute_cod` for one quadrature point (lines 112–126):
read `q_point[1-direction]` (only reached when at least one line exists) and,
for each line within `space_tol` of that coordinate, accumulate
`0.5*u_values[q]*grad_phi_values[q]*JxW(q)` into that line's slot.  The
coordinate is the same for every `k`, so the source's per-`k` read either
fails at `k = 0` or succeeds for all `k`. -/
def codQStep {dim : ℕ} (sol : BlockVec) (direction : ℕ) (space_tol : ℚ)
    (lines : List ℚ) (acc : List ℚ) (q : QPData dim) : Except CodError (List ℚ) :=
  if lines.isEmpty then .ok acc else
    match getCoord? q.point (compAxis direction) with
    | none => .error .coordOutOfBounds
    | some x => .ok (List.zipWith
        (fun line a =>
          if line - space_tol < x ∧ x < line + space_tol then
            a + (0.5 : ℚ) * dot (q.u_of sol) (q.grad_phi_of sol) * q.jxw
          else a)
        lines acc)

/-- One rank's execution of the body of `compute_cod` after the assertion
(lines 81–127): overwrite `relevant_solution` with `solution` (line 96), zero
the `n_lines`-sized accumulator, and run the cell / face / q-point loops over
every face of every locally-owned cell.  The field evaluators read the
just-overwritten `relevant_solution`, i.e. `pf.solution`. -/
def compute_cod_rank {dim : ℕ} (pf : PhaseFieldSolver dim) (lines : List ℚ)
    (direction : ℕ) (space_tol : ℚ) : Except CodError (List ℚ × PhaseFieldSolver dim) :=
  match foldE
      (fun acc c =>
        if c.locally_owned then
          foldE
            (fun acc2 f => foldE (codQStep pf.solution direction space_tol lines) acc2 f.qCOD)
            acc c.faces
        else .ok acc)
      (List.replicate lines.length (0 : ℚ)) pf.mesh with
  | .error e => .error e
  | .ok cod => .ok (cod, { pf with relevant_solution := pf.solution })

/-- `Postprocessing::compute_cod` (lines 71–133): the `AssertThrow
(direction < dim)` of line 79 runs before any mesh traversal; afterwards every
rank accumulates its local `cod_values` and each line's value is reduced by
`Utilities::MPI::sum` (lines 129–130). -/
def compute_cod {dim : ℕ} (world : List (PhaseFieldSolver dim)) (lines : List ℚ)
    (direction : ℕ) (space_tol : ℚ := 1e-7) :
    Except CodError (List ℚ × List (PhaseFieldSolver dim)) :=
  if direction < dim then
    match mapE (fun pf => compute_cod_rank pf lines direction space_tol) world with
    | .error e => .error e
    | .ok ranks =>
      .ok ((ranks.map Prod.fst).foldl (fun acc l => List.zipWith (· + ·) acc l)
             (List.replicate lines.length (0 : ℚ)),
           ranks.map Prod.snd)
  else .error .invalidDirection

/-- A mesh vertex as seen by `get_point_values`: its coordinates
(`cell->vertex(v)`) and, per solution component, the global dof index
`cell->vertex_dof_index(v, comp)`. -/
structure MeshVertex (dim : ℕ) where
  coords : Vec dim
  dofs : List ℕ
deriving DecidableEq

/-- A cell as seen by `get_point_values`: its `is_artificial()` flag and its
vertices. -/
structure GPCell (dim : ℕ) where
  is_artificial : Bool
  vertices : List (MeshVertex dim)
deriving DecidableEq

/-- Distance comparison key: the source compares Euclidean distances
`points[p].distance(cell->vertex(v))`; the embedding uses the squared
distance, which stays in `ℚ`.  Squaring is strictly monotone on nonnegative
reals, so every comparison (`<`, `=`, `min`) the source performs on distances
has the same outcome on squared distances. -/
def dist2 {dim : ℕ} (p q : Vec dim) : ℚ :=
  Finset.univ.sum fun i => (p i - q i) ^ 2

/-- The exact value of `std::numeric_limits<double>::max()` (line 149 and
line 185), i.e. `(2 - 2^-52) * 2^1023 = (2^53 - 1) * 2^971`, written as an
integer literal (`dblMax_eq` below checks the value). -/
def dblMax : ℚ := 179769313486231570814527423731704356798070567525844996598917476803157260780028538760589558632766878171540458953514382464234321326889464182768467546703537516986049910576551282076245490090389328944075868508455133942304583236903222948165808559332123348274797826204144723168738177180919299881250404026184124858368

/-- `std::numeric_limits<unsigned int>::max()` (line 150), the sentinel
closest-vertex dof index. -/
def uintMax : ℕ := 2 ^ 32 - 1

/-- `cell->vertex_dof_index(v, comp)` for the requested component. -/
def vdof {dim : ℕ} (v : MeshVertex dim) (comp : ℕ) : ℕ :=
  v.dofs.getD comp 0

/-- The body of lines 166–175 for a single query point: update its
`(min_distance, closest_vertex_idx)` record when this vertex is strictly
closer than the best so far. -/
def scan_step {dim : ℕ} (comp : ℕ) (pt : Vec dim) (di : ℚ × ℕ) (v : MeshVertex dim) : ℚ × ℕ :=
  if dist2 pt v.coords < di.1 then (dist2 pt v.coords, vdof v comp) else di

/-- The target-point loop of the local phase (lines 164–176) for one vertex:
every point's record is updated against this vertex. -/
def scan_vertex {dim : ℕ} (comp : ℕ) (points : List (Vec dim))
    (st : List (ℚ × ℕ)) (v : MeshVertex dim) : List (ℚ × ℕ) :=
  List.zipWith (fun p di => scan_step comp p di v) points st

/-- The local phase of `get_point_values` (lines 147–178): initialize every
point's record to `(DBL_MAX, UINT_MAX)`, then for every non-artificial cell
and every vertex update the records. -/
def local_phase {dim : ℕ} (cells : List (GPCell dim)) (comp : ℕ)
    (points : List (Vec dim)) : List (ℚ × ℕ) :=
  cells.foldl
    (fun st c => if c.is_artificial then st else c.vertices.foldl (scan_vertex comp points) st)
    (points.map fun _ => (dblMax, uintMax))

/-- `Utilities::MPI::min` over the per-rank values (one entry per rank of the
communicator; an MPI communicator has at least one rank, the `[]` case is
degenerate and never arises). -/
def mpiMin : List ℚ → ℚ
  | [] => dblMax
  | x :: xs => xs.foldl min x

/-- Failure mode of `get_point_values`: reading the distributed solution at a
global dof index it does not contain (line 190 with a sentinel or foreign
index) throws in deal.II/Trilinos. -/
inductive GPError where
  | dofOutOfRange : GPError
deriving DecidableEq, Repr

/-- The global phase of `get_point_values` for one query point, given each
rank's `(min_distance, closest_vertex_idx)` record for that point
(lines 183–197): reduce the per-rank minimal distances by `MPI::min`; each
rank whose local minimum equals the global minimum reads
`solution[closest_vertex_idx[p]]` into its slot (initialized to `DBL_MAX`);
finally the slots are reduced by `MPI::min`. -/
def phase2point (recs : List (ℚ × ℕ)) (solution : BlockVec) : Except GPError ℚ :=
  match mapE
      (fun st =>
        if mpiMin (recs.map Prod.fst) = st.1 then
          match solution[st.2]? with
          | some x => Except.ok x
          | none => Except.error GPError.dofOutOfRange
        else Except.ok dblMax)
      recs with
  | .error e => .error e
  | .ok vals => .ok (mpiMin vals)

/-- The global phase for the point with index `p`: each rank contributes the
`p`-th record of its local phase. -/
def phase2 (locals : List (List (ℚ × ℕ))) (solution : BlockVec) (p : ℕ) :
    Except GPError ℚ :=
  phase2point (locals.map fun l => l.getD p (dblMax, uintMax)) solution

/-- `Postprocessing::get_point_values` (lines 135–200): every rank runs the
local nearest-vertex phase over its non-artificial cells, then for each query
point index `0 ≤ p < n_points` the global phase produces the common reduced
value. -/
def get_point_values {dim : ℕ} (ranks : List (List (GPCell dim))) (solution : BlockVec)
    (comp : ℕ) (points : List (Vec dim)) : Except GPError (List ℚ) :=
  let locals := ranks.map fun cells => local_phase cells comp points
  mapE (phase2 locals solution) (List.range points.length)

/-- Specification-side traction contribution of one quadrature point, written
directly from the spec's words: `stress = lambda*trace(strain)*I + 2*mu*strain`
contracted with the face normal and multiplied by the quadrature weight. -/
def spec_qp_traction {dim : ℕ} (lame shear : ℚ) (strain : Mat dim) (normal : Vec dim)
    (w : ℚ) : Vec dim :=
  fun i =>
    (Finset.univ.sum fun j =>
      (lame * trace strain * (if i = j then 1 else 0) + 2 * shear * strain i j) * normal j) * w

/-- Specification-side local boundary load of one rank: for every
locally-owned cell, for every face at the domain boundary carrying the given
boundary identifier, the sum of the per-quadrature-point tractions, with the
strain evaluated from the rank's solution vector. -/
def spec_local_load {dim : ℕ} (pf : PhaseFieldSolver dim) (data : PhaseFieldData)
    (bid : ℤ) : Vec dim :=
  ((pf.mesh.filter fun c => c.locally_owned).map fun c =>
    ((c.faces.filter fun f => f.at_boundary && (f.boundary_id == bid)).map fun f =>
      (f.qBL.map fun q =>
        spec_qp_traction data.lame_constant data.shear_modulus (q.strain_of pf.solution)
          q.normal q.jxw).sum).sum).sum

/-- Concatenation of the COD quadrature points of a list of faces, in face
order. -/
def qcat {dim : ℕ} (fs : List (MeshFace dim)) : List (QPData dim) :=
  fs.foldr (fun f r => f.qCOD ++ r) []

/-- The quadrature points visited by the COD loops of one rank: every
quadrature point of every face of every locally-owned cell (no restriction to
boundary faces, no dedup of shared interior faces). -/
def meshQ {dim : ℕ} (mesh : List (MeshCell dim)) : List (QPData dim) :=
  (mesh.filter fun c => c.locally_owned).foldr (fun c r => qcat c.faces ++ r) []

/-- The quadrature points `compute_cod` visits on one rank. -/
def visitedQPoints {dim : ℕ} (pf : PhaseFieldSolver dim) : List (QPData dim) :=
  meshQ pf.mesh

/-- Specification-side COD contribution of one quadrature point to one line:
`0.5 * (displacement . phase_field_gradient) * JxW` when the point's
coordinate along the complementary axis lies within `space_tol` of the line,
else `0`. -/
def qContrib {dim : ℕ} (sol : BlockVec) (direction : ℕ) (space_tol line : ℚ)
    (q : QPData dim) : ℚ :=
  if line - space_tol < coordD q.point (compAxis direction) ∧
      coordD q.point (compAxis direction) < line + space_tol then
    (0.5 : ℚ) * dot (q.u_of sol) (q.grad_phi_of sol) * q.jxw
  else 0

/-- Specification-side COD value of one line from a list of visited
quadrature points. -/
def codSum {dim : ℕ} (sol : BlockVec) (direction : ℕ) (space_tol : ℚ)
    (qs : List (QPData dim)) (line : ℚ) : ℚ :=
  (qs.map fun q => qContrib sol direction space_tol line q).sum

/-- The per-point nearest-vertex scan over a flat vertex list, with the
source's initial record `(DBL_MAX, UINT_MAX)`. -/
def scan1 {dim : ℕ} (comp : ℕ) (pt : Vec dim) (vs : List (MeshVertex dim)) : ℚ × ℕ :=
  vs.foldl (scan_step comp pt) (dblMax, uintMax)

/-- The vertices one rank's local phase visits: the vertices of its
non-artificial cells, in traversal order. -/
def vertexSeq {dim : ℕ} (cells : List (GPCell dim)) : List (MeshVertex dim) :=
  (cells.filter fun c => !c.is_artificial).foldr (fun c r => c.vertices ++ r) []

/-- Concrete quadrature point on the 2-D reference setup used by the test
instances below: located at the origin with unit weight, carrying the constant
displacement `(1, 1)` and constant phase-field gradient `(0, -2)` of the
spec's concrete COD scenario. -/
def exQP : QPData 2 :=
  ⟨fun _ => 0, fun _ => 0, 1, fun _ _ _ => 0, fun _ => fun _ => 1,
   fun _ => fun i => if i = 0 then 0 else -2⟩

/-- Concrete one-rank solver state: one owned cell with one interior face
holding `exQP` as its only COD quadrature point. -/
def exPF : PhaseFieldSolver 2 :=
  ⟨[], [], [⟨true, [⟨false, 0, [], [exQP]⟩]⟩]⟩

/-- Concrete mesh vertex at the origin with dof index 0. -/
def exV0 : MeshVertex 2 := ⟨fun _ => 0, [0]⟩

/-- Concrete mesh vertex at `(1, 1)` with dof index 1. -/
def exV1 : MeshVertex 2 := ⟨fun _ => 1, [1]⟩

/-- Concrete non-artificial cell list holding `exV0` and `exV1`. -/
def exCellsA : List (GPCell 2) := [⟨false, [exV0, exV1]⟩]

/-- Vertex at `(0, 1)` with dof 0: equidistant from the origin with `tieVB`. -/
def tieVA : MeshVertex 2 := ⟨fun i => if i = 0 then 0 else 1, [0]⟩

/-- Vertex at `(0, -1)` with dof 1: equidistant from the origin with `tieVA`. -/
def tieVB : MeshVertex 2 := ⟨fun i => if i = 0 then 0 else -1, [1]⟩

/-- Cell holding only `tieVA`. -/
def tieCellA : GPCell 2 := ⟨false, [tieVA]⟩

/-- Cell holding only `tieVB`. -/
def tieCellB : GPCell 2 := ⟨false, [tieVB]⟩

theorem dblMax_eq : dblMax = (2 ^ 53 - 1) * 2 ^ 971 := by
  norm_num [dblMax]

theorem list_sum_apply {dim : ℕ} (l : List (Vec dim)) (i : Fin dim) :
    l.sum i = (l.map fun v => v i).sum := by
  induction l with
  | nil => rfl
  | cons x xs ih => simp [List.sum_cons, Pi.add_apply, ih]

theorem foldl_add_map {α M : Type*} [AddCommMonoid M] (g : α → M) (l : List α) (acc : M) :
    l.foldl (fun a x => a + g x) acc = acc + (l.map g).sum := by
  induction l generalizing acc with
  | nil => simp
  | cons x xs ih => simp [ih, add_assoc]

theorem foldl_filter_add {α M : Type*} [AddCommMonoid M] (p : α → Bool) (g : α → M)
    (l : List α) (acc : M) :
    l.foldl (fun a x => if p x then a + g x else a) acc
      = acc + ((l.filter p).map g).sum := by
  induction l generalizing acc with
  | nil => simp
  | cons x xs ih =>
    cases hp : p x
    · simp [List.foldl_cons, hp, ih, List.filter_cons]
    · simp [List.foldl_cons, hp, ih, List.filter_cons, add_assoc]

theorem face_load_eq {dim : ℕ} (sol : BlockVec) (data : PhaseFieldData)
    (f : MeshFace dim) (acc : Vec dim) :
    face_load sol data f acc = acc + (f.qBL.map fun q => qpTraction sol data q).sum :=
  foldl_add_map _ _ _

theorem cell_load_eq {dim : ℕ} (sol : BlockVec) (data : PhaseFieldData) (bid : ℤ)
    (c : MeshCell dim) (acc : Vec dim) :
    cell_load sol data bid c acc
      = acc + ((c.faces.filter fun f => f.at_boundary && (f.boundary_id == bid)).map
          fun f => (f.qBL.map fun q => qpTraction sol data q).sum).sum := by
  unfold cell_load
  have h : (fun (a : Vec dim) f =>
        if f.at_boundary && (f.boundary_id == bid) then face_load sol data f a else a)
      = (fun (a : Vec dim) f =>
        if f.at_boundary && (f.boundary_id == bid) then
          a + (f.qBL.map fun q => qpTraction sol data q).sum else a) := by
    funext a f
    by_cases hf : (f.at_boundary && (f.boundary_id == bid)) = true <;> simp [hf, face_load_eq]
  rw [h, foldl_filter_add]

theorem qpTraction_eq_spec {dim : ℕ} (sol : BlockVec) (data : PhaseFieldData)
    (q : QPData dim) :
    qpTraction sol data q
      = spec_qp_traction data.lame_constant data.shear_modulus (q.strain_of sol)
          q.normal q.jxw := rfl

theorem compute_boundary_load_rank_eq {dim : ℕ} (pf : PhaseFieldSolver dim)
    (data : PhaseFieldData) (bid : ℤ) :
    compute_boundary_load_rank pf data bid
      = (spec_local_load pf data bid, { pf with relevant_solution := pf.solution }) := by
  unfold compute_boundary_load_rank
  have h : (fun (a : Vec dim) c =>
        if c.locally_owned then cell_load pf.solution data bid c a else a)
      = (fun (a : Vec dim) c =>
        if c.locally_owned then
          a + ((c.faces.filter fun f => f.at_boundary && (f.boundary_id == bid)).map
            fun f => (f.qBL.map fun q => qpTraction pf.solution data q).sum).sum
        else a) := by
    funext a c
    by_cases hc : c.locally_owned = true <;> simp [hc, cell_load_eq]
  simp only [h, foldl_filter_add, zero_add]
  rfl

theorem compute_boundary_load_eq {dim : ℕ} (world : List (PhaseFieldSolver dim))
    (data : PhaseFieldData) (bid : ℤ) :
    compute_boundary_load world data bid
      = (fun i => (world.map fun pf => spec_local_load pf data bid i).sum,
         world.map fun pf => { pf with relevant_solution := pf.solution }) := by
  unfold compute_boundary_load
  simp only [compute_boundary_load_rank_eq, List.map_map]
  rfl

theorem spec_local_load_zero {dim : ℕ} (pf : PhaseFieldSolver dim)
    (data : PhaseFieldData) (bid : ℤ)
    (h : ∀ c ∈ pf.mesh, c.locally_owned → ∀ f ∈ c.faces,
        ¬(f.at_boundary = true ∧ f.boundary_id = bid)) :
    spec_local_load pf data bid = 0 := by
  apply List.sum_eq_zero
  intro x hx
  simp only [List.mem_map, List.mem_filter] at hx
  obtain ⟨c, ⟨hcmem, hcown⟩, rfl⟩ := hx
  have hfil : (c.faces.filter fun f => f.at_boundary && (f.boundary_id == bid)) = [] := by
    rw [List.filter_eq_nil_iff]
    intro f hf
    have := h c hcmem hcown f hf
    simp only [Bool.and_eq_true, beq_iff_eq]
    tauto
  simp [hfil]

theorem zipWith_add_comp (f g : ℚ → ℚ) (lines acc : List ℚ) :
    List.zipWith (fun l a => a + f l) lines (List.zipWith (fun l a => a + g l) lines acc)
      = List.zipWith (fun l a => a + (g l + f l)) lines acc := by
  induction lines generalizing acc with
  | nil => simp
  | cons x xs ih =>
    cases acc with
    | nil => simp
    | cons b bs => simp [ih, add_assoc]

theorem zipWith_id_of_length (lines acc : List ℚ) (h : acc.length = lines.length) :
    List.zipWith (fun _ a => a) lines acc = acc := by
  induction lines generalizing acc with
  | nil =>
    cases acc with
    | nil => rfl
    | cons b bs => simp at h
  | cons x xs ih =>
    cases acc with
    | nil => simp at h
    | cons b bs =>
      simp only [List.length_cons, Nat.add_right_cancel_iff] at h
      simp [ih bs h]

theorem zipWith_replicate (F : ℚ → ℚ → ℚ) (lines : List ℚ) (c : ℚ) :
    List.zipWith F lines (List.replicate lines.length c) = lines.map fun l => F l c := by
  induction lines with
  | nil => rfl
  | cons x xs ih => simp [List.replicate_succ, ih]

theorem codSum_nil {dim : ℕ} (sol : BlockVec) (direction : ℕ) (tol line : ℚ) :
    codSum sol direction tol ([] : List (QPData dim)) line = 0 := rfl

theorem codSum_cons {dim : ℕ} (sol : BlockVec) (direction : ℕ) (tol line : ℚ)
    (q : QPData dim) (qs : List (QPData dim)) :
    codSum sol direction tol (q :: qs) line
      = qContrib sol direction tol line q + codSum sol direction tol qs line := by
  simp [codSum]

theorem codSum_append {dim : ℕ} (sol : BlockVec) (direction : ℕ) (tol line : ℚ)
    (qs rs : List (QPData dim)) :
    codSum sol direction tol (qs ++ rs) line
      = codSum sol direction tol qs line + codSum sol direction tol rs line := by
  simp [codSum]

theorem codQStep_eq {dim : ℕ} (sol : BlockVec) (direction : ℕ) (tol : ℚ)
    (lines acc : List ℚ) (q : QPData dim) (hax : compAxis direction < dim)
    (hlen : acc.length = lines.length) :
    codQStep sol direction tol lines acc q
      = .ok (List.zipWith (fun line a => a + qContrib sol direction tol line q) lines acc) := by
  have hcd : coordD q.point (compAxis direction) = q.point ⟨compAxis direction, hax⟩ := by
    unfold coordD
    rw [dif_pos hax]
  have hx : getCoord? q.point (compAxis direction) = some (q.point ⟨compAxis direction, hax⟩) := by
    unfold getCoord?
    rw [dif_pos hax]
  cases lines with
  | nil =>
    have hacc : acc = [] := List.length_eq_zero.mp (by simpa using hlen)
    subst hacc
    rfl
  | cons l ls =>
    unfold codQStep
    rw [hx]
    simp only [List.isEmpty_cons, Bool.false_eq_true, if_false]
    have hfun : (fun (line a : ℚ) =>
        if line - tol < q.point ⟨compAxis direction, hax⟩ ∧
            q.point ⟨compAxis direction, hax⟩ < line + tol then
          a + (0.5 : ℚ) * dot (q.u_of sol) (q.grad_phi_of sol) * q.jxw
        else a)
      = fun line a => a + qContrib sol direction tol line q := by
      funext line a
      unfold qContrib
      rw [hcd]
      split
      · rfl
      · rw [add_zero]
    rw [hfun]

theorem foldE_codQStep {dim : ℕ} (sol : BlockVec) (direction : ℕ) (tol : ℚ)
    (lines : List ℚ) (qs : List (QPData dim)) (acc : List ℚ)
    (hax : compAxis direction < dim) (hlen : acc.length = lines.length) :
    foldE (codQStep sol direction tol lines) acc qs
      = .ok (List.zipWith (fun line a => a + codSum sol direction tol qs line) lines acc) := by
  induction qs generalizing acc with
  | nil =>
    have hfun : (fun (line a : ℚ) => a + codSum sol direction tol ([] : List (QPData dim)) line)
        = fun (_ a : ℚ) => a := by
      funext line a
      rw [codSum_nil, add_zero]
    rw [hfun, zipWith_id_of_length lines acc hlen]
    rfl
  | cons q qs ih =>
    have hstep := codQStep_eq sol direction tol lines acc q hax hlen
    have hmidlen : (List.zipWith (fun line a => a + qContrib sol direction tol line q) lines acc).length
        = lines.length := by
      rw [List.length_zipWith, hlen, min_self]
    simp only [foldE, hstep, ih _ hmidlen, zipWith_add_comp]
    have hfun : (fun (l : ℚ) (a : ℚ) =>
          a + (qContrib sol direction tol l q + codSum sol direction tol qs l))
        = fun l a => a + codSum sol direction tol (q :: qs) l := by
      funext l a
      rw [codSum_cons]
    rw [hfun]

theorem foldE_faces {dim : ℕ} (sol : BlockVec) (direction : ℕ) (tol : ℚ)
    (lines : List ℚ) (fs : List (MeshFace dim)) (acc : List ℚ)
    (hax : compAxis direction < dim) (hlen : acc.length = lines.length) :
    foldE (fun acc2 f => foldE (codQStep sol direction tol lines) acc2 f.qCOD) acc fs
      = .ok (List.zipWith (fun line a => a + codSum sol direction tol (qcat fs) line) lines acc) := by
  induction fs generalizing acc with
  | nil =>
    have hfun : (fun (line a : ℚ) => a + codSum sol direction tol (qcat ([] : List (MeshFace dim))) line)
        = fun (_ a : ℚ) => a := by
      funext line a
      rw [show qcat ([] : List (MeshFace dim)) = [] from rfl, codSum_nil, add_zero]
    rw [hfun, zipWith_id_of_length lines acc hlen]
    rfl
  | cons f fs ih =>
    have hstep := foldE_codQStep sol direction tol lines f.qCOD acc hax hlen
    have hmidlen : (List.zipWith (fun line a => a + codSum sol direction tol f.qCOD line) lines acc).length
        = lines.length := by
      rw [List.length_zipWith, hlen, min_self]
    simp only [foldE, hstep, ih _ hmidlen, zipWith_add_comp]
    have hfun : (fun (l : ℚ) (a : ℚ) =>
          a + (codSum sol direction tol f.qCOD l + codSum sol direction tol (qcat fs) l))
        = fun l a => a + codSum sol direction tol (qcat (f :: fs)) l := by
      funext l a
      rw [show qcat (f :: fs) = f.qCOD ++ qcat fs from rfl, codSum_append]
    rw [hfun]

theorem meshQ_cons_owned {dim : ℕ} (c : MeshCell dim) (cs : List (MeshCell dim))
    (h : c.locally_owned = true) : meshQ (c :: cs) = qcat c.faces ++ meshQ cs := by
  simp [meshQ, List.filter_cons, h]

theorem meshQ_cons_not {dim : ℕ} (c : MeshCell dim) (cs : List (MeshCell dim))
    (h : c.locally_owned = false) : meshQ (c :: cs) = meshQ cs := by
  simp [meshQ, List.filter_cons, h]

theorem foldE_mesh {dim : ℕ} (sol : BlockVec) (direction : ℕ) (tol : ℚ)
    (lines : List ℚ) (mesh : List (MeshCell dim)) (acc : List ℚ)
    (hax : compAxis direction < dim) (hlen : acc.length = lines.length) :
    foldE
      (fun acc c =>
        if c.locally_owned then
          foldE (fun acc2 f => foldE (codQStep sol direction tol lines) acc2 f.qCOD) acc c.faces
        else .ok acc)
      acc mesh
      = .ok (List.zipWith (fun line a => a + codSum sol direction tol (meshQ mesh) line) lines acc) := by
  induction mesh generalizing acc with
  | nil =>
    have hfun : (fun (line a : ℚ) => a + codSum sol direction tol (meshQ ([] : List (MeshCell dim))) line)
        = fun (_ a : ℚ) => a := by
      funext line a
      rw [show meshQ ([] : List (MeshCell dim)) = [] from rfl, codSum_nil, add_zero]
    rw [hfun, zipWith_id_of_length lines acc hlen]
    rfl
  | cons c cs ih =>
    cases hc : c.locally_owned
    · simp only [foldE, hc, Bool.false_eq_true, if_false, ih _ hlen, meshQ_cons_not c cs hc]
    · have hstep := foldE_faces sol direction tol lines c.faces acc hax hlen
      have hmidlen : (List.zipWith (fun line a => a + codSum sol direction tol (qcat c.faces) line) lines acc).length
          = lines.length := by
        rw [List.length_zipWith, hlen, min_self]
      simp only [foldE, hc, if_true, hstep, ih _ hmidlen, zipWith_add_comp]
      have hfun : (fun (l : ℚ) (a : ℚ) =>
            a + (codSum sol direction tol (qcat c.faces) l + codSum sol direction tol (meshQ cs) l))
          = fun l a => a + codSum sol direction tol (meshQ (c :: cs)) l := by
        funext l a
        rw [meshQ_cons_owned c cs hc, codSum_append]
      rw [hfun]

theorem compute_cod_rank_eq {dim : ℕ} (pf : PhaseFieldSolver dim) (lines : List ℚ)
    (direction : ℕ) (tol : ℚ) (hax : compAxis direction < dim) :
    compute_cod_rank pf lines direction tol
      = .ok (lines.map fun line => codSum pf.solution direction tol (meshQ pf.mesh) line,
             { pf with relevant_solution := pf.solution }) := by
  unfold compute_cod_rank
  rw [foldE_mesh pf.solution direction tol lines pf.mesh _ hax (by rw [List.length_replicate])]
  have := zipWith_replicate (fun line a => a + codSum pf.solution direction tol (meshQ pf.mesh) line) lines 0
  rw [this]
  have hfun : (fun l => (fun (line a : ℚ) => a + codSum pf.solution direction tol (meshQ pf.mesh) line) l 0)
      = fun line => codSum pf.solution direction tol (meshQ pf.mesh) line := by
    funext l
    simp
  rw [hfun]

theorem mapE_ok {α β ε : Type} (f : α → Except ε β) (g : α → β) (l : List α)
    (h : ∀ x ∈ l, f x = .ok (g x)) : mapE f l = .ok (l.map g) := by
  induction l with
  | nil => rfl
  | cons x xs ih =>
    simp only [mapE, h x (List.mem_cons_self x xs),
      ih fun y hy => h y (List.mem_cons_of_mem x hy), List.map_cons]

theorem replicate_zero_eq_map (lines : List ℚ) :
    List.replicate lines.length (0 : ℚ) = lines.map fun _ => 0 := by
  induction lines with
  | nil => rfl
  | cons x xs ih => rw [List.map_cons, List.length_cons, List.replicate_succ, ih]

theorem zipWith_map_map (F : ℚ → ℚ → ℚ) (g h : ℚ → ℚ) (l : List ℚ) :
    List.zipWith F (l.map g) (l.map h) = l.map fun x => F (g x) (h x) := by
  induction l with
  | nil => rfl
  | cons x xs ih => simp [ih]

theorem foldl_zipWith_add (lines : List ℚ) (fs : List (ℚ → ℚ)) (g : ℚ → ℚ) :
    (fs.map fun f => lines.map f).foldl (fun acc l => List.zipWith (· + ·) acc l) (lines.map g)
      = lines.map fun l => g l + (fs.map fun f => f l).sum := by
  induction fs generalizing g with
  | nil => simp only [List.map_nil, List.foldl_nil, List.sum_nil, add_zero]
  | cons f fs ih =>
    simp only [List.map_cons, List.foldl_cons, List.sum_cons]
    rw [zipWith_map_map (· + ·) g f lines, ih fun l => g l + f l]
    have hfun : (fun l => g l + f l + ((fs.map fun f2 => f2 l).sum))
        = fun l => g l + (f l + (fs.map fun f2 => f2 l).sum) := by
      funext l
      rw [add_assoc]
    rw [hfun]

theorem compute_cod_eq {dim : ℕ} (world : List (PhaseFieldSolver dim)) (lines : List ℚ)
    (direction : ℕ) (tol : ℚ) (hdir : direction < dim) (hax : compAxis direction < dim) :
    compute_cod world lines direction tol
      = .ok (lines.map fun line =>
               (world.map fun pf => codSum pf.solution direction tol (meshQ pf.mesh) line).sum,
             world.map fun pf => { pf with relevant_solution := pf.solution }) := by
  have hm := mapE_ok (fun pf => compute_cod_rank pf lines direction tol)
    (fun pf =>
      (lines.map fun line => codSum pf.solution direction tol (meshQ pf.mesh) line,
       { pf with relevant_solution := pf.solution }))
    world (fun pf _ => compute_cod_rank_eq pf lines direction tol hax)
  unfold compute_cod
  rw [if_pos hdir]
  split
  · rename_i e heq
    rw [hm] at heq
    cases heq
  · rename_i ranks heq
    rw [hm] at heq
    injection heq with heq
    subst heq
    have hsnd : ((world.map fun pf =>
          (lines.map fun line => codSum pf.solution direction tol (meshQ pf.mesh) line,
           { pf with relevant_solution := pf.solution })).map Prod.snd)
        = world.map fun pf => { pf with relevant_solution := pf.solution } := by
      rw [List.map_map]
      rfl
    have hfst : ((world.map fun pf =>
          (lines.map fun line => codSum pf.solution direction tol (meshQ pf.mesh) line,
           { pf with relevant_solution := pf.solution })).map Prod.fst)
        = (world.map fun pf (line : ℚ) =>
            codSum pf.solution direction tol (meshQ pf.mesh) line).map fun f => lines.map f := by
      rw [List.map_map, List.map_map]
      rfl
    rw [hsnd, hfst, replicate_zero_eq_map,
      foldl_zipWith_add lines
        (world.map fun pf (line : ℚ) => codSum pf.solution direction tol (meshQ pf.mesh) line)
        (fun _ => 0)]
    have h3 : (fun (l : ℚ) =>
          (0 : ℚ) + (((world.map fun pf (line : ℚ) =>
              codSum pf.solution direction tol (meshQ pf.mesh) line).map fun f => f l).sum))
        = fun line =>
            (world.map fun pf => codSum pf.solution direction tol (meshQ pf.mesh) line).sum := by
      funext l
      rw [List.map_map, zero_add]
      rfl
    rw [h3]

theorem codQStep_err {dim : ℕ} (sol : BlockVec) (direction : ℕ) (tol : ℚ)
    (lines acc : List ℚ) (q : QPData dim) (e : CodError)
    (h : codQStep sol direction tol lines acc q = .error e) : e = .coordOutOfBounds := by
  unfold codQStep at h
  split at h
  · cases h
  · split at h
    · injection h with h2
      exact h2.symm
    · cases h

theorem foldE_err {α β ε : Type} (f : β → α → Except ε β) (P : ε → Prop)
    (hf : ∀ b x e, f b x = .error e → P e) (l : List α) :
    ∀ b e, foldE f b l = .error e → P e := by
  induction l with
  | nil =>
    intro b e h
    cases h
  | cons x xs ih =>
    intro b e h
    simp only [foldE] at h
    cases hfx : f b x with
    | error e2 =>
      rw [hfx] at h
      injection h with h2
      subst h2
      exact hf b x e2 hfx
    | ok b2 =>
      rw [hfx] at h
      exact ih b2 e h

theorem mapE_err {α β ε : Type} (f : α → Except ε β) (P : ε → Prop)
    (hf : ∀ x e, f x = .error e → P e) (l : List α) :
    ∀ e, mapE f l = .error e → P e := by
  induction l with
  | nil =>
    intro e h
    cases h
  | cons x xs ih =>
    intro e h
    simp only [mapE] at h
    cases hfx : f x with
    | error e2 =>
      rw [hfx] at h
      injection h with h2
      subst h2
      exact hf x e2 hfx
    | ok y =>
      rw [hfx] at h
      cases hm : mapE f xs with
      | error e2 =>
        rw [hm] at h
        injection h with h2
        subst h2
        exact ih e2 hm
      | ok ys =>
        rw [hm] at h
        cases h

theorem compute_cod_rank_err {dim : ℕ} (pf : PhaseFieldSolver dim) (lines : List ℚ)
    (direction : ℕ) (tol : ℚ) (e : CodError)
    (h : compute_cod_rank pf lines direction tol = .error e) : e = .coordOutOfBounds := by
  have hq : ∀ (acc : List ℚ) (q : QPData dim) (e2 : CodError),
      codQStep pf.solution direction tol lines acc q = .error e2 → e2 = .coordOutOfBounds :=
    fun acc q e2 h2 => codQStep_err pf.solution direction tol lines acc q e2 h2
  have hface : ∀ (acc2 : List ℚ) (f : MeshFace dim) (e2 : CodError),
      foldE (codQStep pf.solution direction tol lines) acc2 f.qCOD = .error e2 →
        e2 = .coordOutOfBounds :=
    fun acc2 f e2 h2 => foldE_err _ _ hq f.qCOD acc2 e2 h2
  have hcell : ∀ (acc : List ℚ) (c : MeshCell dim) (e2 : CodError),
      (if c.locally_owned then
          foldE (fun acc2 f => foldE (codQStep pf.solution direction tol lines) acc2 f.qCOD)
            acc c.faces
        else .ok acc) = .error e2 → e2 = .coordOutOfBounds := by
    intro acc c e2 h2
    split at h2
    · exact foldE_err _ _ hface c.faces acc e2 h2
    · cases h2
  unfold compute_cod_rank at h
  split at h
  · rename_i e2 heq
    injection h with h2
    subst h2
    exact foldE_err _ _ hcell pf.mesh _ e2 heq
  · cases h

theorem scan_step_lt {dim : ℕ} (comp : ℕ) (pt : Vec dim) (di : ℚ × ℕ) (v : MeshVertex dim)
    (h : dist2 pt v.coords < di.1) :
    scan_step comp pt di v = (dist2 pt v.coords, vdof v comp) := by
  unfold scan_step
  rw [if_pos h]

theorem scan_step_ge {dim : ℕ} (comp : ℕ) (pt : Vec dim) (di : ℚ × ℕ) (v : MeshVertex dim)
    (h : ¬ dist2 pt v.coords < di.1) :
    scan_step comp pt di v = di := by
  unfold scan_step
  rw [if_neg h]

theorem scan_keep {dim : ℕ} (comp : ℕ) (pt : Vec dim) (vs : List (MeshVertex dim)) (st : ℚ × ℕ)
    (h : ∀ w ∈ vs, ¬ dist2 pt w.coords < st.1) :
    vs.foldl (scan_step comp pt) st = st := by
  induction vs with
  | nil => rfl
  | cons w ws ih =>
    simp only [List.foldl_cons]
    rw [scan_step_ge comp pt st w (h w (List.mem_cons_self w ws))]
    exact ih fun u hu => h u (List.mem_cons_of_mem w hu)

theorem scan_found {dim : ℕ} (comp : ℕ) (pt : Vec dim) (v : MeshVertex dim)
    (vs : List (MeshVertex dim)) (st : ℚ × ℕ)
    (hmem : v ∈ vs)
    (hdom : ∀ w ∈ vs, w = v ∨ dist2 pt v.coords < dist2 pt w.coords)
    (hlt : dist2 pt v.coords < st.1) :
    vs.foldl (scan_step comp pt) st = (dist2 pt v.coords, vdof v comp) := by
  induction vs generalizing st with
  | nil => cases hmem
  | cons w ws ih =>
    simp only [List.foldl_cons]
    by_cases hw : w = v
    · subst hw
      rw [scan_step_lt comp pt st w hlt]
      apply scan_keep
      intro u hu
      rcases hdom u (List.mem_cons_of_mem w hu) with rfl | hgt
      · exact lt_irrefl _
      · exact not_lt_of_gt hgt
    · have hv : v ∈ ws := by
        rcases List.mem_cons.mp hmem with h1 | h1
        · exact absurd h1.symm hw
        · exact h1
      have hgt : dist2 pt v.coords < dist2 pt w.coords :=
        (hdom w (List.mem_cons_self w ws)).resolve_left hw
      have hdom2 : ∀ u ∈ ws, u = v ∨ dist2 pt v.coords < dist2 pt u.coords :=
        fun u hu => hdom u (List.mem_cons_of_mem w hu)
      by_cases hcase : dist2 pt w.coords < st.1
      · rw [scan_step_lt comp pt st w hcase]
        exact ih _ hv hdom2 hgt
      · rw [scan_step_ge comp pt st w hcase]
        exact ih _ hv hdom2 hlt

theorem scan_lb {dim : ℕ} (comp : ℕ) (pt : Vec dim) (vs : List (MeshVertex dim))
    (st : ℚ × ℕ) (a : ℚ)
    (hall : ∀ w ∈ vs, a < dist2 pt w.coords) (hst : a < st.1) :
    a < (vs.foldl (scan_step comp pt) st).1 := by
  induction vs generalizing st with
  | nil => exact hst
  | cons w ws ih =>
    simp only [List.foldl_cons]
    by_cases hcase : dist2 pt w.coords < st.1
    · rw [scan_step_lt comp pt st w hcase]
      exact ih _ (fun u hu => hall u (List.mem_cons_of_mem w hu))
        (hall w (List.mem_cons_self w ws))
    · rw [scan_step_ge comp pt st w hcase]
      exact ih _ (fun u hu => hall u (List.mem_cons_of_mem w hu)) hst

theorem foldl_min_eq (a : ℚ) (xs : List ℚ) (x : ℚ)
    (hmem : a = x ∨ a ∈ xs) (hx : a ≤ x) (hall : ∀ y ∈ xs, a ≤ y) :
    xs.foldl min x = a := by
  induction xs generalizing x with
  | nil =>
    rcases hmem with h | h
    · exact h.symm
    · cases h
  | cons y ys ih =>
    simp only [List.foldl_cons]
    have hay : a ≤ y := hall y (List.mem_cons_self y ys)
    have htail : ∀ z ∈ ys, a ≤ z := fun z hz => hall z (List.mem_cons_of_mem y hz)
    rcases hmem with rfl | h
    · rw [min_eq_left hay]
      exact ih _ (Or.inl rfl) le_rfl htail
    · rcases List.mem_cons.mp h with rfl | h2
      · rw [min_eq_right hx]
        exact ih _ (Or.inl rfl) le_rfl htail
      · exact ih _ (Or.inr h2) (le_min hx hay) htail

theorem mpiMin_eq (l : List ℚ) (a : ℚ) (hmem : a ∈ l) (hall : ∀ x ∈ l, a ≤ x) :
    mpiMin l = a := by
  cases l with
  | nil => cases hmem
  | cons x xs =>
    exact foldl_min_eq a xs x (List.mem_cons.mp hmem) (hall x (List.mem_cons_self x xs))
      fun y hy => hall y (List.mem_cons_of_mem x hy)

theorem getElem?_eq_some_getD {α : Type} (l : List α) (n : ℕ) (d : α) (h : n < l.length) :
    l[n]? = some (l.getD n d) := by
  induction l generalizing n with
  | nil => simp at h
  | cons x xs ih =>
    cases n with
    | zero => simp only [List.getElem?_cons_zero, List.getD_cons_zero]
    | succ m =>
      simp only [List.getElem?_cons_succ, List.getD_cons_succ]
      exact ih m (Nat.lt_of_succ_lt_succ h)

theorem getD_mem {α : Type} (l : List α) (n : ℕ) (d : α) (h : n < l.length) :
    l.getD n d ∈ l := by
  induction l generalizing n with
  | nil => simp at h
  | cons x xs ih =>
    cases n with
    | zero =>
      simp only [List.getD_cons_zero]
      exact List.mem_cons_self _ _
    | succ m =>
      simp only [List.getD_cons_succ]
      exact List.mem_cons_of_mem _ (ih m (Nat.lt_of_succ_lt_succ h))

theorem getD_map_lt {α β : Type} (f : α → β) (l : List α) (p : ℕ) (d : α) (d2 : β)
    (h : p < l.length) : (l.map f).getD p d2 = f (l.getD p d) := by
  induction l generalizing p with
  | nil => simp at h
  | cons x xs ih =>
    cases p with
    | zero => simp only [List.map_cons, List.getD_cons_zero]
    | succ m =>
      simp only [List.map_cons, List.getD_cons_succ]
      exact ih m (Nat.lt_of_succ_lt_succ h)

theorem zipWith_points_map {dim : ℕ} (F : Vec dim → (ℚ × ℕ) → (ℚ × ℕ))
    (points : List (Vec dim)) (g : Vec dim → ℚ × ℕ) :
    List.zipWith F points (points.map g) = points.map fun pt => F pt (g pt) := by
  induction points with
  | nil => rfl
  | cons p ps ih => simp only [List.map_cons, List.zipWith_cons_cons, ih]

theorem foldl_scan_vertex {dim : ℕ} (comp : ℕ) (points : List (Vec dim))
    (vs : List (MeshVertex dim)) (g : Vec dim → ℚ × ℕ) :
    vs.foldl (scan_vertex comp points) (points.map g)
      = points.map fun pt => vs.foldl (scan_step comp pt) (g pt) := by
  induction vs generalizing g with
  | nil => rfl
  | cons v vs ih =>
    simp only [List.foldl_cons]
    have hstep : scan_vertex comp points (points.map g) v
        = points.map fun pt => scan_step comp pt (g pt) v := by
      unfold scan_vertex
      exact zipWith_points_map (fun p di => scan_step comp p di v) points g
    rw [hstep, ih fun pt => scan_step comp pt (g pt) v]

theorem vertexSeq_cons_art {dim : ℕ} (c : GPCell dim) (cs : List (GPCell dim))
    (h : c.is_artificial = true) : vertexSeq (c :: cs) = vertexSeq cs := by
  simp [vertexSeq, List.filter_cons, h]

theorem vertexSeq_cons_real {dim : ℕ} (c : GPCell dim) (cs : List (GPCell dim))
    (h : c.is_artificial = false) : vertexSeq (c :: cs) = c.vertices ++ vertexSeq cs := by
  simp [vertexSeq, List.filter_cons, h]

theorem local_phase_eq {dim : ℕ} (cells : List (GPCell dim)) (comp : ℕ)
    (points : List (Vec dim)) :
    local_phase cells comp points = points.map fun pt => scan1 comp pt (vertexSeq cells) := by
  suffices h : ∀ g : Vec dim → ℚ × ℕ,
      cells.foldl
        (fun st c => if c.is_artificial then st else c.vertices.foldl (scan_vertex comp points) st)
        (points.map g)
      = points.map fun pt => (vertexSeq cells).foldl (scan_step comp pt) (g pt) by
    exact h fun _ => (dblMax, uintMax)
  induction cells with
  | nil =>
    intro g
    rfl
  | cons c cs ih =>
    intro g
    cases hc : c.is_artificial
    · simp only [List.foldl_cons, hc, Bool.false_eq_true, if_false]
      rw [foldl_scan_vertex comp points c.vertices g,
        ih fun pt => c.vertices.foldl (scan_step comp pt) (g pt)]
      have hfun : (fun pt => (vertexSeq cs).foldl (scan_step comp pt)
            (c.vertices.foldl (scan_step comp pt) (g pt)))
          = fun pt => (vertexSeq (c :: cs)).foldl (scan_step comp pt) (g pt) := by
        funext pt
        rw [vertexSeq_cons_real c cs hc, List.foldl_append]
      rw [hfun]
    · simp only [List.foldl_cons, hc, if_true]
      rw [ih g]
      have hfun : (fun pt => (vertexSeq cs).foldl (scan_step comp pt) (g pt))
          = fun pt => (vertexSeq (c :: cs)).foldl (scan_step comp pt) (g pt) := by
        funext pt
        rw [vertexSeq_cons_art c cs hc]
      rw [hfun]

theorem mapE_map {α β γ ε : Type} (f : β → Except ε γ) (h : α → β) (l : List α) :
    mapE f (l.map h) = mapE (fun x => f (h x)) l := by
  induction l with
  | nil => rfl
  | cons x xs ih => simp only [List.map_cons, mapE, ih]

theorem mapE_range {α β ε : Type} (l : List α) (d : α) (G : ℕ → Except ε β)
    (F : α → Except ε β) (h : ∀ p, p < l.length → G p = F (l.getD p d)) :
    mapE G (List.range l.length) = mapE F l := by
  induction l generalizing G with
  | nil => rfl
  | cons x xs ih =>
    rw [List.length_cons, List.range_succ_eq_map]
    show (match G 0 with
      | .error e => .error e
      | .ok y =>
        match mapE G ((List.range xs.length).map Nat.succ) with
        | .error e => .error e
        | .ok ys => .ok (y :: ys)) = mapE F (x :: xs)
    rw [mapE_map G Nat.succ (List.range xs.length)]
    rw [h 0 (Nat.succ_pos xs.length)]
    rw [ih (fun p => G (Nat.succ p)) fun p hp => h (Nat.succ p) (Nat.succ_lt_succ hp)]
    rfl

theorem get_point_values_eq {dim : ℕ} (ranks : List (List (GPCell dim))) (solution : BlockVec)
    (comp : ℕ) (points : List (Vec dim)) :
    get_point_values ranks solution comp points
      = mapE
          (fun pt => phase2point (ranks.map fun cells => scan1 comp pt (vertexSeq cells)) solution)
          points := by
  unfold get_point_values
  apply mapE_range points (fun _ => (0 : ℚ))
  intro p hp
  unfold phase2
  have hrec : ((ranks.map fun cells => local_phase cells comp points).map fun l =>
        l.getD p (dblMax, uintMax))
      = ranks.map fun cells =>
          scan1 comp (points.getD p fun _ => (0 : ℚ)) (vertexSeq cells) := by
    rw [List.map_map]
    have hfun : ((fun l => l.getD p (dblMax, uintMax)) ∘ fun cells => local_phase cells comp points)
        = fun cells => scan1 comp (points.getD p fun _ => (0 : ℚ)) (vertexSeq cells) := by
      funext cells
      show (local_phase cells comp points).getD p (dblMax, uintMax) = _
      rw [local_phase_eq cells comp points,
        getD_map_lt (fun pt => scan1 comp pt (vertexSeq cells)) points p (fun _ => (0 : ℚ)) _ hp]
    rw [hfun]
  rw [hrec]

theorem phase2point_eq (recs : List (ℚ × ℕ)) (solution : BlockVec) (dv : ℚ) (idx : ℕ)
    (hmem : (dv, idx) ∈ recs)
    (hdom : ∀ r ∈ recs, r = (dv, idx) ∨ dv < r.1)
    (hidx : idx < solution.length)
    (hsol : ∀ x ∈ solution, x ≤ dblMax) :
    phase2point recs solution = .ok (solution.getD idx 0) := by
  have hgmin : mpiMin (recs.map Prod.fst) = dv := by
    apply mpiMin_eq
    · exact List.mem_map_of_mem Prod.fst hmem
    · intro x hx
      obtain ⟨r, hr, rfl⟩ := List.mem_map.mp hx
      rcases hdom r hr with rfl | hlt
      · exact le_rfl
      · exact le_of_lt hlt
  have hread : solution[idx]? = some (solution.getD idx 0) :=
    getElem?_eq_some_getD solution idx 0 hidx
  have hmap : mapE
      (fun st =>
        if mpiMin (recs.map Prod.fst) = st.1 then
          match solution[st.2]? with
          | some x => Except.ok x
          | none => Except.error GPError.dofOutOfRange
        else Except.ok dblMax)
      recs
      = .ok (recs.map fun st => if st = (dv, idx) then solution.getD idx 0 else dblMax) := by
    apply mapE_ok
    intro r hr
    rcases hdom r hr with rfl | hlt
    · show (if mpiMin (recs.map Prod.fst) = dv then
          match solution[idx]? with
          | some x => Except.ok x
          | none => Except.error GPError.dofOutOfRange
        else Except.ok dblMax)
        = Except.ok (if ((dv, idx) : ℚ × ℕ) = (dv, idx) then solution.getD idx 0 else dblMax)
      rw [hgmin, if_pos rfl, hread, if_pos rfl]
    · have hne : mpiMin (recs.map Prod.fst) ≠ r.1 := by
        rw [hgmin]
        exact ne_of_lt hlt
      have hne2 : r ≠ (dv, idx) := by
        rintro rfl
        exact absurd hlt (lt_irrefl dv)
      rw [if_neg hne, if_neg hne2]
  unfold phase2point
  split
  · rename_i e heq
    rw [hmap] at heq
    cases heq
  · rename_i vals heq
    rw [hmap] at heq
    injection heq with heq
    subst heq
    have hmemg : solution.getD idx 0
        ∈ recs.map fun st => if st = (dv, idx) then solution.getD idx 0 else dblMax := by
      have := List.mem_map_of_mem
        (fun st => if st = (dv, idx) then solution.getD idx 0 else dblMax) hmem
      simpa using this
    have hallg : ∀ x ∈ (recs.map fun st => if st = (dv, idx) then solution.getD idx 0 else dblMax),
        solution.getD idx 0 ≤ x := by
      intro x hx
      obtain ⟨r, hr, rfl⟩ := List.mem_map.mp hx
      by_cases hcase : r = (dv, idx)
      · rw [if_pos hcase]
      · rw [if_neg hcase]
        exact hsol _ (getD_mem solution idx 0 hidx)
    rw [mpiMin_eq _ _ hmemg hallg]

theorem gpv_unique {dim : ℕ} (ranks : List (List (GPCell dim))) (solution : BlockVec)
    (comp : ℕ) (points : List (Vec dim)) (best : Vec dim → MeshVertex dim)
    (hmem : ∀ pt ∈ points, ∃ cells ∈ ranks, best pt ∈ vertexSeq cells)
    (hdom : ∀ pt ∈ points, ∀ cells ∈ ranks, ∀ w ∈ vertexSeq cells,
        w = best pt ∨ dist2 pt (best pt).coords < dist2 pt w.coords)
    (hdM : ∀ pt ∈ points, dist2 pt (best pt).coords < dblMax)
    (hidx : ∀ pt ∈ points, vdof (best pt) comp < solution.length)
    (hsol : ∀ x ∈ solution, x ≤ dblMax) :
    get_point_values ranks solution comp points
      = .ok (points.map fun pt => solution.getD (vdof (best pt) comp) 0) := by
  rw [get_point_values_eq]
  apply mapE_ok
  intro pt hpt
  apply phase2point_eq _ _ (dist2 pt (best pt).coords) (vdof (best pt) comp)
  · obtain ⟨cells, hc, hv⟩ := hmem pt hpt
    have hscan : scan1 comp pt (vertexSeq cells)
        = (dist2 pt (best pt).coords, vdof (best pt) comp) := by
      unfold scan1
      exact scan_found comp pt (best pt) (vertexSeq cells) (dblMax, uintMax) hv
        (hdom pt hpt cells hc) (hdM pt hpt)
    exact hscan ▸ List.mem_map_of_mem (fun cells => scan1 comp pt (vertexSeq cells)) hc
  · intro r hr
    obtain ⟨cells, hc, rfl⟩ := List.mem_map.mp hr
    by_cases hb : best pt ∈ vertexSeq cells
    · left
      unfold scan1
      exact scan_found comp pt (best pt) (vertexSeq cells) (dblMax, uintMax) hb
        (hdom pt hpt cells hc) (hdM pt hpt)
    · right
      unfold scan1
      apply scan_lb comp pt (vertexSeq cells) (dblMax, uintMax) _ ?_ (hdM pt hpt)
      intro w hw
      rcases hdom pt hpt cells hc w hw with rfl | hlt
      · exact absurd hw hb
      · exact hlt
  · exact hidx pt hpt
  · exact hsol

theorem map_sentinel_replicate {α : Type} (l : List α) :
    (l.map fun _ => ((dblMax, uintMax) : ℚ × ℕ))
      = List.replicate l.length ((dblMax, uintMax) : ℚ × ℕ) := by
  induction l with
  | nil => rfl
  | cons x xs ih => rw [List.map_cons, List.length_cons, List.replicate_succ, ih]

theorem phase2point_sentinel (n : ℕ) (solution : BlockVec) (hn : 0 < n)
    (hlen : solution.length ≤ uintMax) :
    phase2point (List.replicate n ((dblMax, uintMax) : ℚ × ℕ)) solution
      = .error .dofOutOfRange := by
  cases n with
  | zero => exact absurd hn (lt_irrefl 0)
  | succ m =>
    have hnone : solution[uintMax]? = none := List.getElem?_eq_none hlen
    have hgmin2 : mpiMin (dblMax :: List.replicate m dblMax) = dblMax := by
      apply mpiMin_eq
      · exact List.mem_cons_self _ _
      · intro x hx
        rcases List.mem_cons.mp hx with rfl | hx2
        · exact le_rfl
        · rw [List.eq_of_mem_replicate hx2]
    unfold phase2point
    rw [List.replicate_succ]
    simp [mapE, hgmin2, hnone]

theorem gpv_empty {dim : ℕ} (ranks : List (List (GPCell dim))) (solution : BlockVec)
    (comp : ℕ) (points : List (Vec dim))
    (hr : ranks ≠ [])
    (hempty : ∀ cells ∈ ranks, vertexSeq cells = [])
    (hlen : solution.length ≤ uintMax)
    (hpts : points ≠ []) :
    get_point_values ranks solution comp points = .error .dofOutOfRange := by
  rw [get_point_values_eq]
  cases points with
  | nil => exact absurd rfl hpts
  | cons pt pts =>
    have hf : phase2point (ranks.map fun cells => scan1 comp pt (vertexSeq cells)) solution
        = .error .dofOutOfRange := by
      have hrecs : (ranks.map fun cells => scan1 comp pt (vertexSeq cells))
          = ranks.map fun _ => ((dblMax, uintMax) : ℚ × ℕ) := by
        apply List.map_congr_left
        intro cells hc
        rw [hempty cells hc]
        rfl
      rw [hrecs, map_sentinel_replicate ranks]
      exact phase2point_sentinel ranks.length solution (List.length_pos.mpr hr) hlen
    simp only [mapE, hf]

theorem compute_cod_invalid {dim : ℕ} (world : List (PhaseFieldSolver dim)) (lines : List ℚ)
    (direction : ℕ) (tol : ℚ) (h : dim ≤ direction) :
    compute_cod world lines direction tol = .error .invalidDirection := by
  unfold compute_cod
  rw [if_neg (Nat.not_lt.mpr h)]

theorem compute_cod_ne_invalid {dim : ℕ} (world : List (PhaseFieldSolver dim)) (lines : List ℚ)
    (direction : ℕ) (tol : ℚ) (hdir : direction < dim) :
    compute_cod world lines direction tol ≠ .error .invalidDirection := by
  intro h
  unfold compute_cod at h
  rw [if_pos hdir] at h
  split at h
  · rename_i e heq
    injection h with h2
    subst h2
    have hcoord := mapE_err _ (fun e2 => e2 = CodError.coordOutOfBounds)
      (fun pf e2 h3 => compute_cod_rank_err pf lines direction tol e2 h3) world _ heq
    exact (by decide : CodError.invalidDirection ≠ CodError.coordOutOfBounds) hcoord
  · cases h

theorem sum_map_flatten {α : Type} {M : Type} [AddCommMonoid M] (ls : List (List α)) (g : α → M) :
    (ls.map fun l => (l.map g).sum).sum = (ls.flatten.map g).sum := by
  induction ls with
  | nil => rfl
  | cons l ls ih =>
    rw [List.map_cons, List.sum_cons, List.flatten_cons, List.map_append, List.sum_append, ih]

theorem meshQ_eq_flatten {dim : ℕ} (mesh : List (MeshCell dim)) :
    meshQ mesh = ((mesh.filter fun c => c.locally_owned).map fun c => qcat c.faces).flatten := by
  unfold meshQ
  generalize (mesh.filter fun c => c.locally_owned) = l
  induction l with
  | nil => rfl
  | cons c cs ih => rw [List.foldr_cons, List.map_cons, List.flatten_cons, ih]

theorem codSum_flatten {dim : ℕ} (sol : BlockVec) (d : ℕ) (t : ℚ)
    (ls : List (List (QPData dim))) (line : ℚ) :
    (ls.map fun l => codSum sol d t l line).sum = codSum sol d t ls.flatten line := by
  induction ls with
  | nil => rfl
  | cons l ls ih =>
    rw [List.map_cons, List.sum_cons, List.flatten_cons, codSum_append, ih]

theorem compute_cod_rank_snd {dim : ℕ} (pf : PhaseFieldSolver dim) (lines : List ℚ)
    (direction : ℕ) (tol : ℚ) (r : List ℚ × PhaseFieldSolver dim)
    (h : compute_cod_rank pf lines direction tol = .ok r) :
    r.2 = { pf with relevant_solution := pf.solution } := by
  unfold compute_cod_rank at h
  split at h
  · cases h
  · injection h with h2
    rw [← h2]

theorem mapE_snd {α β γ ε : Type} (f : α → Except ε (β × γ)) (l : List α)
    (ys : List (β × γ)) (h : mapE f l = .ok ys) (g : α → γ)
    (hrel : ∀ x r, f x = .ok r → r.2 = g x) : ys.map Prod.snd = l.map g := by
  induction l generalizing ys with
  | nil =>
    simp only [mapE] at h
    injection h with h2
    subst h2
    rfl
  | cons x xs ih =>
    simp only [mapE] at h
    cases hfx : f x with
    | error e =>
      rw [hfx] at h
      cases h
    | ok y =>
      rw [hfx] at h
      cases hm : mapE f xs with
      | error e =>
        rw [hm] at h
        cases h
      | ok zs =>
        rw [hm] at h
        injection h with h2
        subst h2
        rw [List.map_cons, List.map_cons, hrel x y hfx, ih zs hm]

theorem codSum_const {dim : ℕ} (sol : BlockVec) (d : ℕ) (t line : ℚ)
    (qs : List (QPData dim)) (u gphi : Vec dim)
    (hconst : ∀ q ∈ qs, q.u_of sol = u ∧ q.grad_phi_of sol = gphi) :
    codSum sol d t qs line
      = (0.5 : ℚ) * dot u gphi *
        ((qs.filter fun q => decide (line - t < coordD q.point (compAxis d) ∧
            coordD q.point (compAxis d) < line + t)).map fun q => q.jxw).sum := by
  induction qs with
  | nil => simp [codSum]
  | cons q qs ih =>
    rw [codSum_cons, ih fun r hr => hconst r (List.mem_cons_of_mem q hr)]
    obtain ⟨hu, hg⟩ := hconst q (List.mem_cons_self q qs)
    by_cases hc : line - t < coordD q.point (compAxis d) ∧ coordD q.point (compAxis d) < line + t
    · unfold qContrib
      rw [if_pos hc, hu, hg, List.filter_cons, if_pos (decide_eq_true hc),
        List.map_cons, List.sum_cons, mul_add]
    · unfold qContrib
      rw [if_neg hc, List.filter_cons,
        if_neg fun hdec => hc (of_decide_eq_true hdec), zero_add]

theorem except_map_ok {ε α β : Type} (f : α → β) (x : α) :
    Except.map f (.ok x : Except ε α) = .ok (f x) := rfl

theorem sum_map_mul_const {α : Type} (c : ℚ) (f : α → ℚ) (l : List α) :
    (l.map fun x => c * f x).sum = c * (l.map f).sum := by
  induction l with
  | nil => simp
  | cons x xs ih => rw [List.map_cons, List.sum_cons, ih, List.map_cons, List.sum_cons, mul_add]

theorem sum_perm_parts {α : Type} {M : Type} [AddCommMonoid M] (parts : List (List α))
    (whole : List α) (g : α → M) (hperm : parts.flatten.Perm whole) :
    (parts.map fun l => (l.map g).sum).sum = (whole.map g).sum := by
  rw [sum_map_flatten]
  exact List.Perm.sum_eq (hperm.map g)

theorem spec_local_load_sum {dim : ℕ} (world : List (PhaseFieldSolver dim))
    (pf0 : PhaseFieldSolver dim) (data : PhaseFieldData) (bid : ℤ)
    (hsol : ∀ pf ∈ world, pf.solution = pf0.solution)
    (hperm : ((world.map fun pf => pf.mesh.filter fun c => c.locally_owned).flatten).Perm
        (pf0.mesh.filter fun c => c.locally_owned)) :
    (world.map fun pf => spec_local_load pf data bid).sum = spec_local_load pf0 data bid := by
  have h1 : world.map (fun pf => spec_local_load pf data bid)
      = (world.map fun pf => pf.mesh.filter fun c => c.locally_owned).map fun l =>
          (l.map fun c =>
            ((c.faces.filter fun f => f.at_boundary && (f.boundary_id == bid)).map fun f =>
              (f.qBL.map fun q =>
                spec_qp_traction data.lame_constant data.shear_modulus (q.strain_of pf0.solution)
                  q.normal q.jxw).sum).sum).sum := by
    rw [List.map_map]
    apply List.map_congr_left
    intro pf hpf
    show spec_local_load pf data bid = _
    unfold spec_local_load
    rw [hsol pf hpf]
    rfl
  rw [h1, sum_perm_parts _ _ _ hperm]
  rfl

theorem codSum_world_sum {dim : ℕ} (world : List (PhaseFieldSolver dim))
    (pf0 : PhaseFieldSolver dim) (direction : ℕ) (tol line : ℚ)
    (hsol : ∀ pf ∈ world, pf.solution = pf0.solution)
    (hperm : ((world.map fun pf => pf.mesh.filter fun c => c.locally_owned).flatten).Perm
        (pf0.mesh.filter fun c => c.locally_owned)) :
    (world.map fun pf => codSum pf.solution direction tol (meshQ pf.mesh) line).sum
      = codSum pf0.solution direction tol (meshQ pf0.mesh) line := by
  have h1 : world.map (fun pf => codSum pf.solution direction tol (meshQ pf.mesh) line)
      = (world.map fun pf => pf.mesh.filter fun c => c.locally_owned).map fun l =>
          (l.map fun c => codSum pf0.solution direction tol (qcat c.faces) line).sum := by
    rw [List.map_map]
    apply List.map_congr_left
    intro pf hpf
    show codSum pf.solution direction tol (meshQ pf.mesh) line = _
    rw [hsol pf hpf, meshQ_eq_flatten, ← codSum_flatten, List.map_map]
    rfl
  rw [h1, sum_perm_parts _ _ _ hperm, meshQ_eq_flatten, ← codSum_flatten, List.map_map]
  rfl

/-- C1: for every solution, elastic constants and boundary identifier,
`compute_boundary_load` returns the dim-component vector obtained by, for
every locally-owned cell, for every face at the domain boundary carrying the
given boundary identifier, at every quadrature point computing
`stress = lame*trace(strain)*I + 2*shear*strain` from the symmetric
displacement gradient, accumulating `stress * face_normal * weight` into a
local vector, and finally reducing each of the `dim` components independently
by a global sum over the ranks (`spec_local_load` spells this formula out on
the specification side, with the strain evaluated from the rank's solution). -/
theorem claim_C1 : ∀ (dim : ℕ) (world : List (PhaseFieldSolver dim))
    (data : PhaseFieldData) (bid : ℤ),
    (compute_boundary_load world data bid).1
      = fun i => (world.map fun pf => spec_local_load pf data bid i).sum := by
  intro dim world data bid
  rw [compute_boundary_load_eq]

/-- C8: a boundary identifier with zero matching faces on a partition is an
ordinary case, not an error: that rank's local load is the zero vector, and
when no face of any rank matches, the reduced global load is the zero
vector. -/
theorem claim_C8 :
    (∀ (dim : ℕ) (pf : PhaseFieldSolver dim) (data : PhaseFieldData) (bid : ℤ),
      (∀ c ∈ pf.mesh, c.locally_owned = true → ∀ f ∈ c.faces,
          ¬(f.at_boundary = true ∧ f.boundary_id = bid)) →
      (compute_boundary_load_rank pf data bid).1 = 0)
  ∧ (∀ (dim : ℕ) (world : List (PhaseFieldSolver dim)) (data : PhaseFieldData) (bid : ℤ),
      (∀ pf ∈ world, ∀ c ∈ pf.mesh, c.locally_owned = true → ∀ f ∈ c.faces,
          ¬(f.at_boundary = true ∧ f.boundary_id = bid)) →
      (compute_boundary_load world data bid).1 = 0) := by
  constructor
  · intro dim pf data bid h
    have h1 : (compute_boundary_load_rank pf data bid).1 = spec_local_load pf data bid := by
      rw [compute_boundary_load_rank_eq]
    rw [h1, spec_local_load_zero pf data bid h]
  · intro dim world data bid h
    have h1 : (compute_boundary_load world data bid).1
        = fun i => (world.map fun pf => spec_local_load pf data bid i).sum := by
      rw [compute_boundary_load_eq]
    rw [h1]
    funext i
    rw [Pi.zero_apply]
    apply List.sum_eq_zero
    intro x hx
    obtain ⟨pf, hpf, rfl⟩ := List.mem_map.mp hx
    rw [spec_local_load_zero pf data bid (h pf hpf), Pi.zero_apply]

theorem claim_C8_witness :
    (compute_boundary_load_rank
        (⟨[], [], [⟨true, [⟨false, 0, [], []⟩]⟩]⟩ : PhaseFieldSolver 2) ⟨1, 1⟩ 1).1 = 0 :=
  claim_C8.1 2 _ _ _ (by
    intro c hc hown f hf
    rcases List.mem_singleton.mp hc with rfl
    rcases List.mem_singleton.mp hf with rfl
    decide)

/-- C4: the `AssertThrow(direction < dim)` of line 79 runs before any mesh
traversal: for `direction ≥ dim` the result is exactly the invalid-argument
error, carrying no partial result and issuing no reduction, while for every
`direction < dim` the check passes and the invalid-argument error cannot be
produced.  This assertion is the only explicit precondition check among the
three operations: neither `compute_boundary_load` nor `get_point_values`
contains one (their embeddings are total apart from the modelled
out-of-range reads). -/
theorem claim_C4 :
    (∀ (dim : ℕ) (world : List (PhaseFieldSolver dim)) (lines : List ℚ)
        (direction : ℕ) (tol : ℚ), dim ≤ direction →
      compute_cod world lines direction tol = .error .invalidDirection)
  ∧ (∀ (dim : ℕ) (world : List (PhaseFieldSolver dim)) (lines : List ℚ)
        (direction : ℕ) (tol : ℚ), direction < dim →
      compute_cod world lines direction tol ≠ .error .invalidDirection) :=
  ⟨fun _ world lines direction tol h => compute_cod_invalid world lines direction tol h,
   fun _ world lines direction tol h => compute_cod_ne_invalid world lines direction tol h⟩

theorem claim_C4_witness :
    compute_cod ([] : List (PhaseFieldSolver 2)) [] 5 1 = .error .invalidDirection
  ∧ compute_cod ([] : List (PhaseFieldSolver 2)) [] 0 1 ≠ .error .invalidDirection :=
  ⟨claim_C4.1 2 [] [] 5 1 (by decide), claim_C4.2 2 [] [] 0 1 (by decide)⟩

/-- C7: the complementary axis is `1 - direction` in unsigned 32-bit
arithmetic irrespective of the mesh dimension.  For `dim = 3` and
`direction = 2` the precondition `direction < dim` passes, yet the index is
`2^32 - 1` (the unsigned value of `-1`), outside the valid range `[0, 3)`;
among the directions the check accepts, the coordinate access is in bounds
exactly when `direction` is `0` or `1`.  A concrete dim-3 run with one owned
cell, one face, one quadrature point and one line aborts with the
out-of-bounds coordinate error. -/
theorem claim_C7 :
    (2 < 3)
  ∧ compAxis 2 = 2 ^ 32 - 1
  ∧ ¬ compAxis 2 < 3
  ∧ (∀ d : ℕ, d < 3 → (compAxis d < 3 ↔ d < 2))
  ∧ compute_cod
      [(⟨[], [],
          [⟨true, [⟨false, 0, [],
            [⟨fun _ => 0, fun _ => 0, 1, fun _ _ _ => 0, fun _ _ => 0, fun _ _ => 0⟩]⟩]⟩]⟩ :
        PhaseFieldSolver 3)]
      [0] 2 1
      = .error .coordOutOfBounds := by
  refine ⟨by decide, by decide, by decide, ?_, ?_⟩
  · intro d hd
    interval_cases d <;> decide
  · rfl

theorem claim_C7_witness : compAxis 1 < 3 ↔ 1 < 2 :=
  claim_C7.2.2.2.1 1 (by decide)

/-- C9: none of the three operations modifies the solver's solution vector:
the per-rank states returned by `compute_boundary_load` and, in the success
case, `compute_cod` differ from the inputs only in `relevant_solution`, which
is freshly overwritten from `solution` before the read pass, and every rank's
`solution` is returned unchanged.  `get_point_values` takes the solution by
constant reference and is embedded as a pure function, so it mutates no
solver state by construction. -/
theorem claim_C9 :
    (∀ (dim : ℕ) (world : List (PhaseFieldSolver dim)) (data : PhaseFieldData) (bid : ℤ),
      (compute_boundary_load world data bid).2
          = (world.map fun pf => { pf with relevant_solution := pf.solution })
        ∧ ((compute_boundary_load world data bid).2.map fun pf => pf.solution)
          = world.map fun pf => pf.solution)
  ∧ (∀ (dim : ℕ) (world : List (PhaseFieldSolver dim)) (lines : List ℚ) (direction : ℕ)
        (tol : ℚ) (out : List ℚ × List (PhaseFieldSolver dim)),
      compute_cod world lines direction tol = .ok out →
      out.2 = (world.map fun pf => { pf with relevant_solution := pf.solution })
        ∧ (out.2.map fun pf => pf.solution) = world.map fun pf => pf.solution) := by
  constructor
  · intro dim world data bid
    have h2 : (compute_boundary_load world data bid).2
        = world.map fun pf => { pf with relevant_solution := pf.solution } := by
      rw [compute_boundary_load_eq]
    refine ⟨h2, ?_⟩
    rw [h2, List.map_map]
    rfl
  · intro dim world lines direction tol out h
    unfold compute_cod at h
    by_cases hdir : direction < dim
    · rw [if_pos hdir] at h
      split at h
      · cases h
      · rename_i ranks heq
        injection h with h2
        subst h2
        have hsnd : (ranks.map Prod.snd)
            = world.map fun pf => { pf with relevant_solution := pf.solution } :=
          mapE_snd _ world ranks heq _
            fun pf r hr => compute_cod_rank_snd pf lines direction tol r hr
        refine ⟨hsnd, ?_⟩
        show ((ranks.map Prod.snd).map fun pf => pf.solution) = _
        rw [hsnd, List.map_map]
        rfl
    · rw [if_neg hdir] at h
      cases h

theorem claim_C9_witness :
    (([], []) : List ℚ × List (PhaseFieldSolver 2)).2
        = (([] : List (PhaseFieldSolver 2)).map fun pf => { pf with relevant_solution := pf.solution })
      ∧ ((([], []) : List ℚ × List (PhaseFieldSolver 2)).2.map fun pf => pf.solution)
        = ([] : List (PhaseFieldSolver 2)).map fun pf => pf.solution :=
  claim_C9.2 2 [] [] 0 1 ([], []) rfl

/-- C2: in `compute_cod`, a quadrature point contributes to a line's COD
exactly when its coordinate along the complementary axis lies within
`space_tol` of that line, and the contribution is
`0.5 * (displacement . phase_field_gradient) * weight`; consequently, for
constant displacement `u` and constant phase-field gradient `gphi` over all
visited quadrature points, every line's value is
`0.5 * (u . gphi) * (sum of the matched quadrature weights)`, the global sum
running over the ranks (for `lines = [l]`, this is the spec's `cod[0]`
scenario). -/
theorem claim_C2 :
    ∀ (dim : ℕ) (world : List (PhaseFieldSolver dim)) (lines : List ℚ) (direction : ℕ)
      (tol : ℚ) (u gphi : Vec dim),
      direction < dim → compAxis direction < dim →
      (∀ pf ∈ world, ∀ q ∈ visitedQPoints pf,
          q.u_of pf.solution = u ∧ q.grad_phi_of pf.solution = gphi) →
      Except.map Prod.fst (compute_cod world lines direction tol)
        = .ok (lines.map fun line =>
            (0.5 : ℚ) * dot u gphi *
              (world.map fun pf =>
                (((visitedQPoints pf).filter fun q =>
                    decide (line - tol < coordD q.point (compAxis direction) ∧
                      coordD q.point (compAxis direction) < line + tol)).map
                  fun q => q.jxw).sum).sum) := by
  intro dim world lines direction tol u gphi hdir hax hconst
  rw [compute_cod_eq _ _ _ _ hdir hax, except_map_ok]
  congr 1
  apply List.map_congr_left
  intro line hl
  have h1 : world.map (fun pf => codSum pf.solution direction tol (meshQ pf.mesh) line)
      = world.map fun pf =>
          (0.5 : ℚ) * dot u gphi *
            (((visitedQPoints pf).filter fun q =>
                decide (line - tol < coordD q.point (compAxis direction) ∧
                  coordD q.point (compAxis direction) < line + tol)).map
              fun q => q.jxw).sum := by
    apply List.map_congr_left
    intro pf hpf
    exact codSum_const pf.solution direction tol line (visitedQPoints pf) u gphi
      fun q hq => hconst pf hpf q hq
  rw [h1, sum_map_mul_const]

theorem claim_C2_witness :
    Except.map Prod.fst (compute_cod [exPF] [0] 0 (1e-7))
      = .ok (([0] : List ℚ).map fun line =>
          (0.5 : ℚ) * dot ((fun _ => 1) : Vec 2) ((fun i => if i = 0 then 0 else -2) : Vec 2) *
            ([exPF].map fun pf =>
              (((visitedQPoints pf).filter fun q =>
                  decide (line - 1e-7 < coordD q.point (compAxis 0) ∧
                    coordD q.point (compAxis 0) < line + 1e-7)).map
                fun q => q.jxw).sum).sum) :=
  claim_C2 2 [exPF] [0] 0 (1e-7) ((fun _ => 1) : Vec 2)
    ((fun i => if i = 0 then 0 else -2) : Vec 2)
    (by decide) (by decide)
    (by
      intro pf hpf q hq
      rcases List.mem_singleton.mp hpf with rfl
      have hvq : visitedQPoints exPF = [exQP] := rfl
      rw [hvq] at hq
      rcases List.mem_singleton.mp hq with rfl
      exact ⟨rfl, rfl⟩)

/-- C5: `compute_cod` visits every face of every locally-owned cell with no
restriction to domain-boundary faces and no dedup of shared interior faces:
the result sums the contributions of `visitedQPoints`, the concatenation of
the quadrature points of all faces of all owned cells (first conjunct), so a
face listed by two owned cells is visited once from each cell and its matched
quadrature points are accumulated twice (second conjunct). -/
theorem claim_C5 :
    (∀ (dim : ℕ) (world : List (PhaseFieldSolver dim)) (lines : List ℚ) (direction : ℕ)
        (tol : ℚ), direction < dim → compAxis direction < dim →
      compute_cod world lines direction tol
        = .ok (lines.map fun line =>
                 (world.map fun pf =>
                   codSum pf.solution direction tol (visitedQPoints pf) line).sum,
               world.map fun pf => { pf with relevant_solution := pf.solution }))
  ∧ (∀ (dim : ℕ) (sol rel : BlockVec) (F : MeshFace dim) (lines : List ℚ) (direction : ℕ)
        (tol : ℚ), direction < dim → compAxis direction < dim →
      Except.map Prod.fst
          (compute_cod [(⟨sol, rel, [⟨true, [F]⟩, ⟨true, [F]⟩]⟩ : PhaseFieldSolver dim)]
            lines direction tol)
        = .ok (lines.map fun line => 2 * codSum sol direction tol F.qCOD line)) := by
  constructor
  · intro dim world lines direction tol hdir hax
    exact compute_cod_eq world lines direction tol hdir hax
  · intro dim sol rel F lines direction tol hdir hax
    rw [compute_cod_eq _ _ _ _ hdir hax, except_map_ok]
    congr 1
    apply List.map_congr_left
    intro line hl
    show ([(⟨sol, rel, [⟨true, [F]⟩, ⟨true, [F]⟩]⟩ : PhaseFieldSolver dim)].map fun pf =>
        codSum pf.solution direction tol (meshQ pf.mesh) line).sum = _
    rw [List.map_cons, List.map_nil, List.sum_cons, List.sum_nil, add_zero]
    have hmesh : meshQ ([⟨true, [F]⟩, ⟨true, [F]⟩] : List (MeshCell dim))
        = (F.qCOD ++ []) ++ ((F.qCOD ++ []) ++ []) := rfl
    show codSum sol direction tol (meshQ ([⟨true, [F]⟩, ⟨true, [F]⟩] : List (MeshCell dim))) line
        = 2 * codSum sol direction tol F.qCOD line
    rw [hmesh]
    simp [codSum_append, codSum_nil, two_mul]

theorem claim_C5_witness :
    Except.map Prod.fst
        (compute_cod
          [(⟨[], [], [⟨true, [⟨false, 0, [], []⟩]⟩, ⟨true, [⟨false, 0, [], []⟩]⟩]⟩ :
            PhaseFieldSolver 2)]
          [0] 0 1)
      = .ok (([0] : List ℚ).map fun line =>
          2 * codSum [] 0 1 (⟨false, 0, [], []⟩ : MeshFace 2).qCOD line) :=
  claim_C5.2 2 [] [] ⟨false, 0, [], []⟩ [0] 0 1 (by decide) (by decide)

/-- C3: `get_point_values` returns, per query point, the solution value at
the globally nearest mesh vertex: whenever a vertex `best pt` is visited by
some rank, is strictly nearer to `pt` than every other visited vertex on every
rank (the claim's presupposition that "the globally nearest vertex" is well
defined), lies nearer than the `DBL_MAX` sentinel, and its dof is a valid
index of the solution whose entries are representable (at most `DBL_MAX`),
then the reduced result reads exactly that vertex's dof — the minimum of the
per-rank minima selects its rank(s) and the final min-reduction discards the
sentinel slots of the other ranks.  The spec's "exact vertex hit" is the
instance `dist2 pt (best pt).coords = 0` with all other vertices strictly
farther; the witness below exercises it. -/
theorem claim_C3 :
    ∀ (dim : ℕ) (ranks : List (List (GPCell dim))) (solution : BlockVec) (comp : ℕ)
      (points : List (Vec dim)) (best : Vec dim → MeshVertex dim),
      (∀ pt ∈ points, ∃ cells ∈ ranks, best pt ∈ vertexSeq cells) →
      (∀ pt ∈ points, ∀ cells ∈ ranks, ∀ w ∈ vertexSeq cells,
          w = best pt ∨ dist2 pt (best pt).coords < dist2 pt w.coords) →
      (∀ pt ∈ points, dist2 pt (best pt).coords < dblMax) →
      (∀ pt ∈ points, vdof (best pt) comp < solution.length) →
      (∀ x ∈ solution, x ≤ dblMax) →
      get_point_values ranks solution comp points
        = .ok (points.map fun pt => solution.getD (vdof (best pt) comp) 0) :=
  fun _ ranks solution comp points best hmem hdom hdM hidx hsol =>
    gpv_unique ranks solution comp points best hmem hdom hdM hidx hsol

theorem claim_C3_witness :
    get_point_values [exCellsA] [7, 9] 0 [fun _ => 0]
      = .ok (([fun _ => 0] : List (Vec 2)).map fun pt =>
          ([7, 9] : List ℚ).getD (vdof ((fun _ => exV0) pt) 0) 0) :=
  claim_C3 2 [exCellsA] [7, 9] 0 [fun _ => 0] (fun _ => exV0)
    (by decide)
    (by
      intro pt hpt cells hc w hw
      rcases List.mem_singleton.mp hpt with rfl
      rcases List.mem_singleton.mp hc with rfl
      have hv : vertexSeq exCellsA = [exV0, exV1] := rfl
      rw [hv] at hw
      rcases List.mem_cons.mp hw with rfl | hw2
      · left
        rfl
      · rcases List.mem_singleton.mp hw2 with rfl
        right
        show dist2 (fun _ => 0) exV0.coords < dist2 (fun _ => 0) exV1.coords
        norm_num [dist2, exV0, exV1, Fin.sum_univ_two])
    (by
      intro pt hpt
      rcases List.mem_singleton.mp hpt with rfl
      show dist2 (fun _ => 0) exV0.coords < dblMax
      norm_num [dist2, exV0, dblMax, Fin.sum_univ_two])
    (by decide) (by decide)

/-- C6 counterexample: for a query point with no vertex found on any rank,
the result does not remain at the sentinel value: every rank's sentinel
distance equals the reduced global minimum (`DBL_MAX = DBL_MAX`), so the read
branch of line 190 executes with the sentinel dof index `UINT_MAX` and the
access to the solution vector is out of range — an error, not a silently
returned sentinel. -/
theorem claim_C6_counterexample :
    get_point_values ([[]] : List (List (GPCell 2))) [] 0 [fun _ => 0]
        = .error GPError.dofOutOfRange
  ∧ get_point_values ([[]] : List (List (GPCell 2))) [] 0 [fun _ => 0]
        ≠ .ok [dblMax] := by
  refine ⟨rfl, ?_⟩
  intro h
  have h2 : (Except.error GPError.dofOutOfRange : Except GPError (List ℚ)) = .ok [dblMax] := h
  exact Except.noConfusion h2

/-- C6 amended: for every query point set on a mesh where no rank visits any
vertex, every rank's sentinel distance `DBL_MAX` equals the global minimum,
so every rank attempts to read the solution at the sentinel dof index
`UINT_MAX`; since the solution has no such index, the call fails with an
out-of-range access instead of leaving the sentinel value in the result. -/
theorem claim_C6_amended :
    ∀ (dim : ℕ) (ranks : List (List (GPCell dim))) (solution : BlockVec) (comp : ℕ)
      (points : List (Vec dim)),
      ranks ≠ [] →
      (∀ cells ∈ ranks, vertexSeq cells = []) →
      solution.length ≤ uintMax →
      points ≠ [] →
      get_point_values ranks solution comp points = .error .dofOutOfRange :=
  fun _ ranks solution comp points hr hempty hlen hpts =>
    gpv_empty ranks solution comp points hr hempty hlen hpts

theorem claim_C6_witness :
    get_point_values ([[]] : List (List (GPCell 2))) [7] 0 [fun _ => 0]
      = .error GPError.dofOutOfRange :=
  claim_C6_amended 2 [[]] [7] 0 [fun _ => 0] (by decide) (by decide) (by decide) (by decide)

/-- C10 counterexample: partition invariance fails for the nearest-vertex
sampler when two vertices tie in distance with different solution values: for
the query point at the origin, `tieVA` (value 5) and `tieVB` (value 3) are
both at squared distance 1; on a single partition the first-encountered
vertex wins (result 5), while with one vertex per partition both ranks
achieve the global minimal distance and the final min-reduction returns the
smaller value (result 3). -/
theorem claim_C10_counterexample :
    get_point_values [[tieCellA], [tieCellB]] [5, 3] 0 [fun _ => 0] = .ok [3]
  ∧ get_point_values [[tieCellA, tieCellB]] [5, 3] 0 [fun _ => 0] = .ok [5]
  ∧ get_point_values [[tieCellA], [tieCellB]] [5, 3] 0 [fun _ => 0]
      ≠ get_point_values [[tieCellA, tieCellB]] [5, 3] 0 [fun _ => 0] := by
  have hA : dist2 (fun _ => (0 : ℚ)) tieVA.coords = 1 := by
    norm_num [dist2, tieVA, Fin.sum_univ_two]
  have hB : dist2 (fun _ => (0 : ℚ)) tieVB.coords = 1 := by
    norm_num [dist2, tieVB, Fin.sum_univ_two]
  have h1M : (1 : ℚ) < dblMax := by decide
  have hsA : scan1 0 (fun _ => (0 : ℚ)) (vertexSeq [tieCellA]) = (1, 0) := by
    show List.foldl (scan_step 0 fun _ => (0 : ℚ)) (dblMax, uintMax) [tieVA] = (1, 0)
    rw [List.foldl_cons, scan_step_lt _ _ _ _ (by rw [hA]; exact h1M), List.foldl_nil, hA]
    rfl
  have hsB : scan1 0 (fun _ => (0 : ℚ)) (vertexSeq [tieCellB]) = (1, 1) := by
    show List.foldl (scan_step 0 fun _ => (0 : ℚ)) (dblMax, uintMax) [tieVB] = (1, 1)
    rw [List.foldl_cons, scan_step_lt _ _ _ _ (by rw [hB]; exact h1M), List.foldl_nil, hB]
    rfl
  have hsAB : scan1 0 (fun _ => (0 : ℚ)) (vertexSeq [tieCellA, tieCellB]) = (1, 0) := by
    show List.foldl (scan_step 0 fun _ => (0 : ℚ)) (dblMax, uintMax) [tieVA, tieVB] = (1, 0)
    rw [List.foldl_cons, scan_step_lt _ _ _ _ (by rw [hA]; exact h1M), List.foldl_cons,
      scan_step_ge _ _ _ _ (by rw [hB, hA]; exact lt_irrefl 1), List.foldl_nil, hA]
    rfl
  have hmulti : get_point_values [[tieCellA], [tieCellB]] [5, 3] 0 [fun _ => (0 : ℚ)]
      = .ok [3] := by
    rw [get_point_values_eq]
    simp only [mapE, List.map_cons, List.map_nil, hsA, hsB]
    rfl
  have hsingle : get_point_values [[tieCellA, tieCellB]] [5, 3] 0 [fun _ => (0 : ℚ)]
      = .ok [5] := by
    rw [get_point_values_eq]
    simp only [mapE, List.map_cons, List.map_nil, hsAB]
    rfl
  refine ⟨hmulti, hsingle, ?_⟩
  intro h
  rw [hmulti, hsingle] at h
  injection h with h3
  injection h3 with h4 h5
  exact absurd h4 (by norm_num)

/-- C10 amended: partition invariance holds exactly (in exact arithmetic) for
the boundary load and the COD profile: whenever the ranks' locally-owned
cells form a permutation of the single-partition owned cells and all ranks
share the solution, the reduced results agree.  For the nearest-vertex
sampler it holds under the additional hypothesis that each query point has a
unique strictly nearest visited vertex (present on some rank and visible to
the single partition); without that hypothesis it can fail — with equal
minimal distances and differing values, the multi-partition result is the
minimum over the tied candidates while the single partition returns the
first encountered (see the counterexample). -/
theorem claim_C10_amended :
    (∀ (dim : ℕ) (world : List (PhaseFieldSolver dim)) (pf0 : PhaseFieldSolver dim)
        (data : PhaseFieldData) (bid : ℤ),
      (∀ pf ∈ world, pf.solution = pf0.solution) →
      ((world.map fun pf => pf.mesh.filter fun c => c.locally_owned).flatten).Perm
          (pf0.mesh.filter fun c => c.locally_owned) →
      (compute_boundary_load world data bid).1 = (compute_boundary_load [pf0] data bid).1)
  ∧ (∀ (dim : ℕ) (world : List (PhaseFieldSolver dim)) (pf0 : PhaseFieldSolver dim)
        (lines : List ℚ) (direction : ℕ) (tol : ℚ),
      direction < dim → compAxis direction < dim →
      (∀ pf ∈ world, pf.solution = pf0.solution) →
      ((world.map fun pf => pf.mesh.filter fun c => c.locally_owned).flatten).Perm
          (pf0.mesh.filter fun c => c.locally_owned) →
      Except.map Prod.fst (compute_cod world lines direction tol)
        = Except.map Prod.fst (compute_cod [pf0] lines direction tol))
  ∧ (∀ (dim : ℕ) (ranks : List (List (GPCell dim))) (cells0 : List (GPCell dim))
        (solution : BlockVec) (comp : ℕ) (points : List (Vec dim))
        (best : Vec dim → MeshVertex dim),
      (∀ cells ∈ ranks, ∀ v ∈ vertexSeq cells, v ∈ vertexSeq cells0) →
      (∀ pt ∈ points, best pt ∈ vertexSeq cells0) →
      (∀ pt ∈ points, ∃ cells ∈ ranks, best pt ∈ vertexSeq cells) →
      (∀ pt ∈ points, ∀ w ∈ vertexSeq cells0,
          w = best pt ∨ dist2 pt (best pt).coords < dist2 pt w.coords) →
      (∀ pt ∈ points, dist2 pt (best pt).coords < dblMax) →
      (∀ pt ∈ points, vdof (best pt) comp < solution.length) →
      (∀ x ∈ solution, x ≤ dblMax) →
      get_point_values ranks solution comp points
        = get_point_values [cells0] solution comp points) := by
  refine ⟨?_, ?_, ?_⟩
  · intro dim world pf0 data bid hsol hperm
    have e1 : (compute_boundary_load world data bid).1
        = fun i => (world.map fun pf => spec_local_load pf data bid i).sum := by
      rw [compute_boundary_load_eq]
    have e2 : (compute_boundary_load [pf0] data bid).1
        = fun i => ([pf0].map fun pf => spec_local_load pf data bid i).sum := by
      rw [compute_boundary_load_eq]
    rw [e1, e2]
    funext i
    have h1 : (world.map fun pf => spec_local_load pf data bid).sum i
        = (world.map fun pf => spec_local_load pf data bid i).sum := by
      rw [list_sum_apply, List.map_map]
      rfl
    rw [← h1, spec_local_load_sum world pf0 data bid hsol hperm,
      List.map_cons, List.map_nil, List.sum_cons, List.sum_nil, add_zero]
  · intro dim world pf0 lines direction tol hdir hax hsol hperm
    rw [compute_cod_eq _ _ _ _ hdir hax, compute_cod_eq _ _ _ _ hdir hax,
      except_map_ok, except_map_ok]
    congr 1
    apply List.map_congr_left
    intro line hl
    rw [codSum_world_sum world pf0 direction tol line hsol hperm,
      List.map_cons, List.map_nil, List.sum_cons, List.sum_nil, add_zero]
  · intro dim ranks cells0 solution comp points best hsub hmem0 hmemr hdom0 hdM hidx hsol
    rw [gpv_unique ranks solution comp points best hmemr
        (fun pt hpt cells hc w hw => hdom0 pt hpt w (hsub cells hc w hw)) hdM hidx hsol,
      gpv_unique [cells0] solution comp points best
        (fun pt hpt => ⟨cells0, List.mem_singleton_self cells0, hmem0 pt hpt⟩)
        (fun pt hpt cells hc w hw => by
          rcases List.mem_singleton.mp hc with rfl
          exact hdom0 pt hpt w hw)
        hdM hidx hsol]

theorem claim_C10_witness :
    (compute_boundary_load [(⟨[], [5], []⟩ : PhaseFieldSolver 2)] ⟨1, 1⟩ 0).1
      = (compute_boundary_load [(⟨[], [], []⟩ : PhaseFieldSolver 2)] ⟨1, 1⟩ 0).1 :=
  claim_C10_amended.1 2 [⟨[], [5], []⟩] ⟨[], [], []⟩ ⟨1, 1⟩ 0
    (by
      intro pf hpf
      rcases List.mem_singleton.mp hpf with rfl
      rfl)
    List.Perm.nil
